import Mathlib

/-!
Verification of the tree-merge and build-orchestration logic of
BuildMacOSUniversalBinary.py (Dolphin universal-binary build script).

The script is shallowly embedded: directory trees become an inductive type,
the four loops of recursiveMergeBinaries become pure recursive functions over
that type, external processes (lipo, cmake, xcodebuild, codesign) become
oracles for their exit status and output, and Python exceptions become an
explicit error type threaded through Except.

Modelling conventions, stated once here:
* A filesystem name is a String; a directory is an ordered association list
  of (name, entry), the order standing for the enumeration order of
  glob.glob(dir + "/*") used by the source (the source never sorts).
* A symbolic link entry is represented by the value the source computes for
  it at lines 175 and 183: os.path.relpath(os.path.realpath(p), src), i.e.
  the fully resolved target as a relative path (a list of segments) from the
  directory containing the link. Link targets are assumed to exist
  (the spec, section 3: only the presence of a symlink and its
  resolved-target relative path matter), so os.path.exists of a link entry
  is modelled as true, and os.path.isdir of a link entry is not followed.
* File metadata (mode, mtime) is not represented, so the stat-signature
  shortcut inside filecmp.cmp collapses to content equality on regular
  files; filecmp.cmp returns False when either argument is not a regular
  file, as the real one does via its stat.S_IFMT signature check.
* Recursion in the merge is bounded by explicit fuel; the top-level wrapper
  passes fuel strictly larger than the recursion depth of any run (the
  left-hand tree shrinks at every nested call), and all universal theorems
  are conditioned on successful completion, so fuel exhaustion never
  manufactures a fact.
-/

/-- A filesystem entry: a regular file with byte content, a directory with an
ordered list of named children, or a symbolic link represented by its
resolved target relative to the directory containing the link. -/
inductive FSTree where
  | file (content : List Nat)
  | dir (entries : List (String × FSTree))
  | link (rel : List String)
deriving Repr

/-- Test for a symbolic link, as os.path.islink. -/
def FSTree.isLink : FSTree → Bool
  | .link _ => true
  | _ => false

/-- Test for a directory, as os.path.isdir on the merge inputs. A link entry
is not reported as a directory here: link target kinds are outside the model
(see the header). -/
def FSTree.isDir : FSTree → Bool
  | .dir _ => true
  | _ => false

/-- Children enumerated by glob.glob(p + "/*"): the entries of a directory;
globbing a regular file yields nothing. Globbing a link to a directory would
enumerate the target, which is outside the model; the merge only reaches this
function on non-link left entries and on right entries checked with isDir. -/
def FSTree.childrenOf : FSTree → List (String × FSTree)
  | .dir es => es
  | _ => []

/-- Names of the entries of a directory listing. -/
def namesOf (es : List (String × FSTree)) : List String := es.map Prod.fst

/-- First entry with the given name, as a filesystem lookup. -/
def findEntry : List (String × FSTree) → String → Option FSTree
  | [], _ => none
  | (m, t) :: rest, n => if m = n then some t else findEntry rest n

/-- Lookup of a non-empty relative path (list of name segments) in a tree,
descending through directories only. -/
def findPath (es : List (String × FSTree)) : List String → Option FSTree
  | [] => none
  | [n] => findEntry es n
  | n :: m :: rest =>
    match findEntry es n with
    | some (FSTree.dir es2) => findPath es2 (m :: rest)
    | _ => none

/-- Write an entry, overwriting an existing one with the same name in place
and appending otherwise; this is the destination-side effect of shutil.copy
and of the lipo output file, both of which overwrite. -/
def setEntry (es : List (String × FSTree)) (n : String) (t : FSTree) :
    List (String × FSTree) :=
  match es with
  | [] => [(n, t)]
  | (m, u) :: rest => if m = n then (n, t) :: rest else (m, u) :: setEntry rest n t

/-- Errors of the embedded script, one per Python exception that the source
can raise plus the fuel sentinel of the model. -/
inductive Err where
  | nameError      -- UnboundLocalError: loop 2 reads newpath0 before assignment
  | isADirectory   -- shutil.copy called with a directory (or followed-link) source
  | notADirectory  -- shutil.copytree called with a non-directory source
  | fileExists     -- os.mkdir, os.symlink or shutil.copytree destination exists
  | unmodelled     -- behavior outside the model (never reached by the merge)
  | outOfFuel      -- model artifact: recursion fuel exhausted
deriving Repr, DecidableEq

/-- Create a fresh entry, failing when the name already exists; this is the
destination-side effect of os.mkdir, os.symlink and shutil.copytree, all of
which raise FileExistsError on an existing destination. -/
def addNew (es : List (String × FSTree)) (n : String) (t : FSTree) :
    Except Err (List (String × FSTree)) :=
  if (findEntry es n).isSome then .error .fileExists else .ok (es ++ [(n, t)])

/-- The comparison of filecmp.cmp at line 152, projected onto the model:
both arguments regular files with equal content. The real function returns
False without reading content when either argument is not a regular file
(its stat.S_IFMT signature check); file metadata is not represented, so the
shallow stat shortcut collapses to content equality. -/
def filecmpCmp : FSTree → FSTree → Bool
  | .file c0, .file c1 => c0 == c1
  | _, _ => false

/-- The content transfer of shutil.copy at lines 154 and 160: yields the
byte content of a regular file; raises IsADirectoryError when the source is
a directory. A link source would be followed outside the model; the merge
only copies sources it has checked with islink. -/
def shutilCopy : FSTree → Except Err (List Nat)
  | .file c => .ok c
  | .dir _ => .error .isADirectory
  | .link _ => .error .unmodelled

/-- The subtree transfer of shutil.copytree at line 168: copies a directory
tree, raising NotADirectoryError on a non-directory source. This call is
unreachable in the merge (its guard compares against a name that always
exists on the left, see loop2); it is modelled as a verbatim subtree copy. -/
def copytree : FSTree → Except Err FSTree
  | .dir es => .ok (.dir es)
  | _ => .error .notADirectory

/-- Outcome oracle for one invocation of the external lipo tool on the
contents of two regular files: some merged content on exit status 0, none on
a non-zero exit status (in which case lipo wrote no usable output). -/
abbrev LipoOracle := List Nat → List Nat → Option (List Nat)

/-- Lift the oracle to filesystem entries: the external lipo -create call
fails (non-zero status, no output) whenever either input path is not a
regular object file. -/
def lipoExec (o : LipoOracle) : FSTree → FSTree → Option (List Nat)
  | .file c0, .file c1 => o c0 c1
  | _, _ => none

/-- Diagnostic printed by the lipo fallback at line 126, naming the two
input paths and the path whose content is kept. -/
structure Warn where
  leftPath : List String
  rightPath : List String
  keptPath : List String
deriving Repr, DecidableEq

/-- The lipo function at lines 124..127: run the external tool; on a
non-zero status, print the warning naming path0, path1 and path0 as kept,
then fall back to shutil.copy(path0, dst), and in all cases return normally
to the caller. -/
def lipo (o : LipoOracle) (p0 p1 : List String) (t0 t1 : FSTree) :
    Except Err (List Nat × List Warn) :=
  match lipoExec o t0 t1 with
  | some u => .ok (u, [])
  | none =>
    match shutilCopy t0 with
    | .ok c => .ok (c, [Warn.mk p0 p1 p0])
    | .error e => .error e

/-- Signature of the recursive merge call passed into the first loop. -/
abbrev MergeRec := List String → List String → List String →
    List (String × FSTree) → List (String × FSTree) →
    Except Err (List (String × FSTree) × List Warn)

/-- Body of one iteration of the first loop of recursiveMergeBinaries
(lines 141..160), processing left entry (n, t0) against the right listing
src1 and the destination built so far; yields the new destination and the
warnings this entry emitted. -/
def step1 (o : LipoOracle) (rec : MergeRec) (p0 p1 pd : List String)
    (src1 : List (String × FSTree)) (n : String) (t0 : FSTree)
    (dst : List (String × FSTree)) :
    Except Err (List (String × FSTree) × List Warn) :=
  if t0.isLink then .ok (dst, [])
  else
    match findEntry src1 n with
    | some t1 =>
      if t1.isDir then
        -- os.mkdir(new_dst_path) then recurse into both directories
        if (findEntry dst n).isSome then .error .fileExists
        else
          match rec (p0 ++ [n]) (p1 ++ [n]) (pd ++ [n]) t0.childrenOf t1.childrenOf with
          | .error e => .error e
          | .ok (d2, ws2) => .ok (dst ++ [(n, FSTree.dir d2)], ws2)
      else
        if filecmpCmp t0 t1 then
          match shutilCopy t0 with
          | .error e => .error e
          | .ok c => .ok (setEntry dst n (FSTree.file c), [])
        else
          match lipo o (p0 ++ [n]) (p1 ++ [n]) t0 t1 with
          | .error e => .error e
          | .ok (c, ws2) => .ok (setEntry dst n (FSTree.file c), ws2)
    | none =>
      -- copy files that do not exist in path1
      match shutilCopy t0 with
      | .error e => .error e
      | .ok c => .ok (setEntry dst n (FSTree.file c), [])

/-- First loop of recursiveMergeBinaries (lines 141..160) over the left
listing, accumulating the destination and the warnings. -/
def loop1 (o : LipoOracle) (rec : MergeRec) (p0 p1 pd : List String)
    (src1 : List (String × FSTree)) :
    List (String × FSTree) → List (String × FSTree) → List Warn →
    Except Err (List (String × FSTree) × List Warn)
  | [], dst, ws => .ok (dst, ws)
  | (n, t0) :: rest, dst, ws =>
    match step1 o rec p0 p1 pd src1 n t0 dst with
    | .error e => .error e
    | .ok (dst2, ws2) => loop1 o rec p0 p1 pd src1 rest dst2 (ws ++ ws2)

/-- Second loop of recursiveMergeBinaries (lines 163..168). The source reads
the loop variable of the first loop here: line 164 computes filename from
newpath0, which still holds the last left-hand path (or is unbound when the
left listing was empty), not from the right-hand entry being visited. The
cur argument carries that stale name; reading it unbound raises
UnboundLocalError, a NameError. Afterwards the line newpath0 =
os.path.join(src0, filename) rebinds it, so the next iteration extracts the
same name again. -/
def loop2 (src0 : List (String × FSTree)) :
    Option String → List (String × FSTree) → List (String × FSTree) →
    Except Err (List (String × FSTree))
  | _, dst, [] => .ok dst
  | cur, dst, (_, t1) :: rest =>
    match cur with
    | none => .error .nameError
    | some prev =>
      let filename := prev
      if (findEntry src0 filename).isNone && !t1.isLink then
        match copytree t1 with
        | .error e => .error e
        | .ok t2 =>
          match addNew dst filename t2 with
          | .error e => .error e
          | .ok dst2 => loop2 src0 (some filename) dst2 rest
      else loop2 src0 (some filename) dst rest

/-- Third loop of recursiveMergeBinaries (lines 171..176): recreate every
left-hand symlink at the destination as a relative link. -/
def loop3 : List (String × FSTree) → List (String × FSTree) →
    Except Err (List (String × FSTree))
  | dst, [] => .ok dst
  | dst, (n, t0) :: rest =>
    match t0 with
    | .link r =>
      match addNew dst n (FSTree.link r) with
      | .error e => .error e
      | .ok dst2 => loop3 dst2 rest
    | _ => loop3 dst rest

/-- Fourth loop of recursiveMergeBinaries (lines 178..184): recreate a
right-hand symlink at the destination when the left tree has no entry with
that name. -/
def loop4 (src0 : List (String × FSTree)) :
    List (String × FSTree) → List (String × FSTree) →
    Except Err (List (String × FSTree))
  | dst, [] => .ok dst
  | dst, (n, t1) :: rest =>
    match t1 with
    | .link r =>
      if (findEntry src0 n).isNone then
        match addNew dst n (FSTree.link r) with
        | .error e => .error e
        | .ok dst2 => loop4 src0 dst2 rest
      else loop4 src0 dst rest
    | _ => loop4 src0 dst rest

/-- Name bound in newpath0 after the first loop finished: the name of the
last entry the glob over src0 produced, if any. -/
def lastName (es : List (String × FSTree)) : Option String :=
  (es.getLast?).map Prod.fst

/-- One call of recursiveMergeBinaries (lines 139..186) at explicit fuel:
the four loops in source order, threading the destination listing. The
paths p0, p1, pd locate the current call for diagnostic texts. -/
def mergeGo (o : LipoOracle) :
    Nat → List String → List String → List String →
    List (String × FSTree) → List (String × FSTree) →
    Except Err (List (String × FSTree) × List Warn)
  | 0, _, _, _, _, _ => .error .outOfFuel
  | fuel + 1, p0, p1, pd, src0, src1 =>
    match loop1 o (mergeGo o fuel) p0 p1 pd src1 src0 [] [] with
    | .error e => .error e
    | .ok (d1, ws) =>
      match loop2 src0 (lastName src0) d1 src1 with
      | .error e => .error e
      | .ok d2 =>
        match loop3 d2 src0 with
        | .error e => .error e
        | .ok d3 =>
          match loop4 src0 d3 src1 with
          | .error e => .error e
          | .ok d4 => .ok (d4, ws)

mutual
/-- Size of one entry, bounding the recursion depth below it. -/
def entrySize : FSTree → Nat
  | .file _ => 1
  | .link _ => 1
  | .dir es => 1 + entriesSize es

/-- Size of a listing. -/
def entriesSize : List (String × FSTree) → Nat
  | [] => 0
  | (_, t) :: rest => entrySize t + entriesSize rest
end

/-- Top-level recursiveMergeBinaries on two source listings: nested calls
always recurse into children of the left tree, so the left size bounds the
recursion depth and the given fuel is never exhausted. -/
def recursiveMergeBinaries (o : LipoOracle)
    (src0 src1 : List (String × FSTree)) :
    Except Err (List (String × FSTree) × List Warn) :=
  mergeGo o (entriesSize src0 + 1) ["src0"] ["src1"] ["dst"] src0 src1

mutual
/-- Well-formedness of an entry: directory listings have pairwise distinct
names, as real directories do. -/
def wfTree : FSTree → Bool
  | .file _ => true
  | .link _ => true
  | .dir es => wfEntries es

/-- Well-formedness of a listing. -/
def wfEntries : List (String × FSTree) → Bool
  | [] => true
  | (n, t) :: rest => !((namesOf rest).contains n) && wfTree t && wfEntries rest
end

/-! Basic lemmas about lookups, insertion and well-formedness. -/

theorem namesOf_cons (m : String) (t : FSTree) (rest : List (String × FSTree)) :
    namesOf ((m, t) :: rest) = m :: namesOf rest := rfl

theorem findEntry_eq_none_iff (es : List (String × FSTree)) (n : String) :
    findEntry es n = none ↔ n ∉ namesOf es := by
  induction es with
  | nil => simp [findEntry, namesOf]
  | cons e rest ih =>
    obtain ⟨m, t⟩ := e
    rw [namesOf_cons, List.mem_cons]
    by_cases h : m = n
    · subst h
      simp [findEntry]
    · simp only [findEntry, if_neg h]
      rw [ih]
      constructor
      · intro hn hc
        rcases hc with hc | hc
        · exact h hc.symm
        · exact hn hc
      · intro hn hc
        exact hn (Or.inr hc)

theorem findEntry_isSome_of_mem_names {es : List (String × FSTree)} {n : String}
    (h : n ∈ namesOf es) : (findEntry es n).isSome = true := by
  induction es with
  | nil => simp [namesOf] at h
  | cons e rest ih =>
    obtain ⟨m, t⟩ := e
    by_cases hm : m = n
    · simp [findEntry, hm]
    · rw [namesOf_cons, List.mem_cons] at h
      rcases h with h | h
      · exact absurd h.symm hm
      · simpa [findEntry, hm] using ih h

theorem findEntry_some_mem {es : List (String × FSTree)} {n : String} {t : FSTree}
    (h : findEntry es n = some t) : (n, t) ∈ es := by
  induction es with
  | nil => simp [findEntry] at h
  | cons e rest ih =>
    obtain ⟨m, u⟩ := e
    by_cases hm : m = n
    · subst hm
      simp [findEntry] at h
      subst h
      exact List.mem_cons_self _ _
    · simp [findEntry, hm] at h
      exact List.mem_cons_of_mem _ (ih h)

theorem mem_names_of_mem {es : List (String × FSTree)} {n : String} {t : FSTree}
    (h : (n, t) ∈ es) : n ∈ namesOf es := by
  induction es with
  | nil => simp at h
  | cons e rest ih =>
    obtain ⟨m, u⟩ := e
    rcases List.mem_cons.mp h with h | h
    · cases h
      rw [namesOf_cons]
      exact List.mem_cons_self _ _
    · rw [namesOf_cons]
      exact List.mem_cons_of_mem _ (ih h)

theorem mem_findEntry_nodup {es : List (String × FSTree)} {n : String} {t : FSTree}
    (hnd : (namesOf es).Nodup) (h : (n, t) ∈ es) : findEntry es n = some t := by
  induction es with
  | nil => simp at h
  | cons e rest ih =>
    obtain ⟨m, u⟩ := e
    rw [namesOf_cons, List.nodup_cons] at hnd
    rcases List.mem_cons.mp h with h | h
    · cases h
      simp [findEntry]
    · have hm : m ≠ n := fun he => hnd.1 (he ▸ mem_names_of_mem h)
      simp only [findEntry, if_neg hm]
      exact ih hnd.2 h

theorem findEntry_setEntry_self (es : List (String × FSTree)) (n : String) (t : FSTree) :
    findEntry (setEntry es n t) n = some t := by
  induction es with
  | nil => simp [setEntry, findEntry]
  | cons e rest ih =>
    obtain ⟨m, u⟩ := e
    by_cases hm : m = n
    · subst hm
      simp [setEntry, findEntry]
    · simp only [setEntry, if_neg hm, findEntry, ih]

theorem findEntry_setEntry_ne (es : List (String × FSTree)) {m n : String} (t : FSTree)
    (h : m ≠ n) : findEntry (setEntry es n t) m = findEntry es m := by
  have hnm : n ≠ m := fun he => h he.symm
  induction es with
  | nil => simp [setEntry, findEntry, hnm]
  | cons e rest ih =>
    obtain ⟨k, u⟩ := e
    by_cases hk : k = n
    · subst hk
      simp [setEntry, findEntry, hnm]
    · simp only [setEntry, if_neg hk, findEntry]
      by_cases hkm : k = m
      · simp [hkm]
      · simp [hkm, ih]

theorem findEntry_append_ne (es es2 : List (String × FSTree)) {m : String}
    (h : m ∉ namesOf es2) : findEntry (es ++ es2) m = findEntry es m := by
  induction es with
  | nil =>
    simp only [List.nil_append, findEntry]
    exact (findEntry_eq_none_iff es2 m).mpr h
  | cons e rest ih =>
    obtain ⟨k, u⟩ := e
    by_cases hk : k = m
    · simp [findEntry, hk]
    · simp [findEntry, hk, ih]

theorem findEntry_append_self (es : List (String × FSTree)) {n : String} (t : FSTree)
    (h : findEntry es n = none) : findEntry (es ++ [(n, t)]) n = some t := by
  induction es with
  | nil => simp [findEntry]
  | cons e rest ih =>
    obtain ⟨k, u⟩ := e
    by_cases hk : k = n
    · simp [findEntry, hk] at h
    · simp only [List.cons_append, findEntry, if_neg hk] at h ⊢
      exact ih h

theorem addNew_ok {es es2 : List (String × FSTree)} {n : String} {t : FSTree}
    (h : addNew es n t = .ok es2) :
    findEntry es n = none ∧ es2 = es ++ [(n, t)] := by
  by_cases hs : (findEntry es n).isSome
  · simp [addNew, hs] at h
  · simp only [addNew, hs, if_false, Bool.false_eq_true, if_neg] at h
    refine ⟨?_, ?_⟩
    · cases he : findEntry es n with
      | none => rfl
      | some u => rw [he] at hs; simp at hs
    · cases h
      rfl

theorem contains_eq_false_iff {l : List String} {a : String} :
    l.contains a = false ↔ a ∉ l := by
  induction l with
  | nil => simp
  | cons b rest ih =>
    rw [List.contains_cons]
    constructor
    · intro h hm
      rcases List.mem_cons.mp hm with hm | hm
      · simp [hm] at h
      · exact (ih.mp (by
          rcases Bool.or_eq_false_iff.mp h with ⟨_, h2⟩
          exact h2)) hm
    · intro h
      apply Bool.or_eq_false_iff.mpr
      constructor
      · by_cases he : a = b
        · exact absurd (he ▸ List.mem_cons_self b rest) h
        · simp [he]
      · exact ih.mpr (fun hm => h (List.mem_cons_of_mem _ hm))

theorem wfEntries_cons {n : String} {t : FSTree} {rest : List (String × FSTree)}
    (h : wfEntries ((n, t) :: rest) = true) :
    n ∉ namesOf rest ∧ wfTree t = true ∧ wfEntries rest = true := by
  have h2 := h
  unfold wfEntries at h2
  rw [Bool.and_eq_true, Bool.and_eq_true, Bool.not_eq_true'] at h2
  exact ⟨contains_eq_false_iff.mp h2.1.1, h2.1.2, h2.2⟩

theorem wfEntries_nodup {es : List (String × FSTree)}
    (h : wfEntries es = true) : (namesOf es).Nodup := by
  induction es with
  | nil => simp [namesOf]
  | cons e rest ih =>
    obtain ⟨n, t⟩ := e
    obtain ⟨h1, _, h3⟩ := wfEntries_cons h
    rw [namesOf_cons, List.nodup_cons]
    exact ⟨h1, ih h3⟩

theorem wfEntries_findEntry {es : List (String × FSTree)} {n : String} {t : FSTree}
    (h : wfEntries es = true) (hf : findEntry es n = some t) : wfTree t = true := by
  induction es with
  | nil => simp [findEntry] at hf
  | cons e rest ih =>
    obtain ⟨m, u⟩ := e
    obtain ⟨_, h2, h3⟩ := wfEntries_cons h
    by_cases hm : m = n
    · simp [findEntry, hm] at hf
      exact hf ▸ h2
    · simp [findEntry, hm] at hf
      exact ih h3 hf

theorem wfTree_dir {es : List (String × FSTree)} : wfTree (.dir es) = wfEntries es := rfl

/-! Helper evaluation lemmas for the comparison and lipo primitives. -/

theorem filecmpCmp_left_dir (es0 : List (String × FSTree)) (t1 : FSTree) :
    filecmpCmp (.dir es0) t1 = false := by cases t1 <;> rfl

theorem filecmpCmp_right_link (t0 : FSTree) (r : List String) :
    filecmpCmp t0 (.link r) = false := by cases t0 <;> rfl

theorem lipoExec_left_dir (o : LipoOracle) (es0 : List (String × FSTree)) (t1 : FSTree) :
    lipoExec o (.dir es0) t1 = none := by cases t1 <;> rfl

theorem lipoExec_right_link (o : LipoOracle) (t0 : FSTree) (r : List String) :
    lipoExec o t0 (.link r) = none := by cases t0 <;> rfl

/-! Case lemmas for one iteration of the first loop. -/

theorem step1_link {o : LipoOracle} {rec : MergeRec} {p0 p1 pd : List String}
    {src1 : List (String × FSTree)} {n : String} {t0 : FSTree}
    {dst : List (String × FSTree)} (h : t0.isLink = true) :
    step1 o rec p0 p1 pd src1 n t0 dst = .ok (dst, []) := by
  simp [step1, h]

theorem step1_file_none {o : LipoOracle} {rec : MergeRec} {p0 p1 pd : List String}
    {src1 : List (String × FSTree)} {n : String} {c : List Nat}
    {dst : List (String × FSTree)} (h1 : findEntry src1 n = none) :
    step1 o rec p0 p1 pd src1 n (.file c) dst = .ok (setEntry dst n (.file c), []) := by
  simp [step1, FSTree.isLink, h1, shutilCopy]

theorem step1_file_eq {o : LipoOracle} {rec : MergeRec} {p0 p1 pd : List String}
    {src1 : List (String × FSTree)} {n : String} {c : List Nat}
    {dst : List (String × FSTree)} (h1 : findEntry src1 n = some (.file c)) :
    step1 o rec p0 p1 pd src1 n (.file c) dst = .ok (setEntry dst n (.file c), []) := by
  simp [step1, FSTree.isLink, h1, FSTree.isDir, filecmpCmp, shutilCopy]

theorem step1_file_diff_ok {o : LipoOracle} {rec : MergeRec} {p0 p1 pd : List String}
    {src1 : List (String × FSTree)} {n : String} {c c2 u : List Nat}
    {dst : List (String × FSTree)} (h1 : findEntry src1 n = some (.file c2))
    (hne : c ≠ c2) (ho : o c c2 = some u) :
    step1 o rec p0 p1 pd src1 n (.file c) dst = .ok (setEntry dst n (.file u), []) := by
  simp [step1, FSTree.isLink, h1, FSTree.isDir, filecmpCmp, hne, lipo, lipoExec, ho]

theorem step1_file_diff_fail {o : LipoOracle} {rec : MergeRec} {p0 p1 pd : List String}
    {src1 : List (String × FSTree)} {n : String} {c c2 : List Nat}
    {dst : List (String × FSTree)} (h1 : findEntry src1 n = some (.file c2))
    (hne : c ≠ c2) (ho : o c c2 = none) :
    step1 o rec p0 p1 pd src1 n (.file c) dst =
      .ok (setEntry dst n (.file c),
           [Warn.mk (p0 ++ [n]) (p1 ++ [n]) (p0 ++ [n])]) := by
  simp [step1, FSTree.isLink, h1, FSTree.isDir, filecmpCmp, hne, lipo, lipoExec, ho,
        shutilCopy]

theorem step1_file_link {o : LipoOracle} {rec : MergeRec} {p0 p1 pd : List String}
    {src1 : List (String × FSTree)} {n : String} {c : List Nat} {r : List String}
    {dst : List (String × FSTree)} (h1 : findEntry src1 n = some (.link r)) :
    step1 o rec p0 p1 pd src1 n (.file c) dst =
      .ok (setEntry dst n (.file c),
           [Warn.mk (p0 ++ [n]) (p1 ++ [n]) (p0 ++ [n])]) := by
  simp [step1, FSTree.isLink, h1, FSTree.isDir, filecmpCmp_right_link, lipo,
        lipoExec_right_link, shutilCopy]

theorem step1_dir_none {o : LipoOracle} {rec : MergeRec} {p0 p1 pd : List String}
    {src1 : List (String × FSTree)} {n : String} {es0 : List (String × FSTree)}
    {dst : List (String × FSTree)} (h1 : findEntry src1 n = none) :
    step1 o rec p0 p1 pd src1 n (.dir es0) dst = .error .isADirectory := by
  simp [step1, FSTree.isLink, h1, shutilCopy]

theorem step1_dir_nondir {o : LipoOracle} {rec : MergeRec} {p0 p1 pd : List String}
    {src1 : List (String × FSTree)} {n : String} {es0 : List (String × FSTree)}
    {t1 : FSTree} {dst : List (String × FSTree)}
    (h1 : findEntry src1 n = some t1) (hd : t1.isDir = false) :
    step1 o rec p0 p1 pd src1 n (.dir es0) dst = .error .isADirectory := by
  simp [step1, FSTree.isLink, h1, hd, filecmpCmp_left_dir, lipo, lipoExec_left_dir,
        shutilCopy]

theorem step1_dir_right {o : LipoOracle} {rec : MergeRec} {p0 p1 pd : List String}
    {src1 : List (String × FSTree)} {n : String} {t0 : FSTree}
    {es1 dst dst2 : List (String × FSTree)} {ws2 : List Warn}
    (hl : t0.isLink = false) (h1 : findEntry src1 n = some (.dir es1))
    (h : step1 o rec p0 p1 pd src1 n t0 dst = .ok (dst2, ws2)) :
    findEntry dst n = none ∧
    ∃ d2, rec (p0 ++ [n]) (p1 ++ [n]) (pd ++ [n]) t0.childrenOf es1 = .ok (d2, ws2) ∧
      dst2 = dst ++ [(n, FSTree.dir d2)] := by
  rw [step1] at h
  simp only [hl, Bool.false_eq_true, if_false, h1, FSTree.isDir, if_true] at h
  by_cases hs : (findEntry dst n).isSome
  · simp [hs] at h
  · have hnone : findEntry dst n = none := by
      cases he : findEntry dst n with
      | none => rfl
      | some u => rw [he] at hs; simp at hs
    refine ⟨hnone, ?_⟩
    simp only [hs, if_false, Bool.false_eq_true] at h
    rw [show (FSTree.dir es1).childrenOf = es1 from rfl] at h
    cases hrec : rec (p0 ++ [n]) (p1 ++ [n]) (pd ++ [n]) t0.childrenOf es1 with
    | error e => rw [hrec] at h; simp at h
    | ok pr =>
      obtain ⟨d2, ws3⟩ := pr
      rw [hrec] at h
      simp only [Except.ok.injEq, Prod.mk.injEq] at h
      exact ⟨d2, by rw [h.2], h.1.symm⟩

theorem step1_frame {o : LipoOracle} {rec : MergeRec} {p0 p1 pd : List String}
    {src1 : List (String × FSTree)} {n : String} {t0 : FSTree}
    {dst dst2 : List (String × FSTree)} {ws2 : List Warn} {m : String}
    (hm : m ≠ n) (h : step1 o rec p0 p1 pd src1 n t0 dst = .ok (dst2, ws2)) :
    findEntry dst2 m = findEntry dst m := by
  rw [step1] at h
  split at h
  · cases h
    rfl
  · split at h
    · split at h
      · split at h
        · simp at h
        · split at h
          · simp at h
          · cases h
            exact findEntry_append_ne _ _ (by
              simp only [namesOf, List.map_cons, List.map_nil, List.mem_singleton]
              exact hm)
      · split at h
        · split at h
          · simp at h
          · cases h
            exact findEntry_setEntry_ne _ _ hm
        · split at h
          · simp at h
          · cases h
            exact findEntry_setEntry_ne _ _ hm
    · split at h
      · simp at h
      · cases h
        exact findEntry_setEntry_ne _ _ hm

/-! Lemmas about the four loops. -/

theorem loop1_frame {o : LipoOracle} {rec : MergeRec} {p0 p1 pd : List String}
    {src1 src0 dst d : List (String × FSTree)} {ws wsOut : List Warn} {n : String}
    (hn : ∀ t, (n, t) ∈ src0 → t.isLink = true)
    (h : loop1 o rec p0 p1 pd src1 src0 dst ws = .ok (d, wsOut)) :
    findEntry d n = findEntry dst n := by
  induction src0 generalizing dst ws with
  | nil => rw [loop1] at h; cases h; rfl
  | cons e rest ih =>
    obtain ⟨k, t⟩ := e
    rw [loop1] at h
    split at h
    · simp at h
    · next dstB wsB heq =>
      have hrest : findEntry d n = findEntry dstB n :=
        ih (fun t ht => hn t (List.mem_cons_of_mem _ ht)) h
      by_cases hk : k = n
      · subst hk
        have hl : t.isLink = true := hn t (List.mem_cons_self _ _)
        rw [step1_link hl] at heq
        cases heq
        exact hrest
      · rw [hrest]
        exact step1_frame (fun he => hk he.symm) heq

theorem loop1_ws_mono {o : LipoOracle} {rec : MergeRec} {p0 p1 pd : List String}
    {src1 src0 dst d : List (String × FSTree)} {ws wsOut : List Warn}
    (h : loop1 o rec p0 p1 pd src1 src0 dst ws = .ok (d, wsOut)) :
    ∀ w ∈ ws, w ∈ wsOut := by
  induction src0 generalizing dst ws with
  | nil => rw [loop1] at h; cases h; exact fun w hw => hw
  | cons e rest ih =>
    obtain ⟨k, t⟩ := e
    rw [loop1] at h
    split at h
    · simp at h
    · next dstB wsB heq =>
      intro w hw
      exact ih h w (List.mem_append_left _ hw)

theorem loop1_entry {o : LipoOracle} {rec : MergeRec} {p0 p1 pd : List String}
    {src1 src0 dst d : List (String × FSTree)} {ws wsOut : List Warn}
    {n : String} {t0 : FSTree}
    (hnd : (namesOf src0).Nodup) (hmem : (n, t0) ∈ src0)
    (h : loop1 o rec p0 p1 pd src1 src0 dst ws = .ok (d, wsOut)) :
    ∃ dstA dstB wsB, step1 o rec p0 p1 pd src1 n t0 dstA = .ok (dstB, wsB) ∧
      findEntry d n = findEntry dstB n ∧ ∀ w ∈ wsB, w ∈ wsOut := by
  induction src0 generalizing dst ws with
  | nil => simp at hmem
  | cons e rest ih =>
    obtain ⟨k, t⟩ := e
    rw [namesOf_cons, List.nodup_cons] at hnd
    rw [loop1] at h
    split at h
    · simp at h
    · next dstB wsB heq =>
      rcases List.mem_cons.mp hmem with hmem | hmem
      · cases hmem
        refine ⟨dst, dstB, wsB, heq, ?_, ?_⟩
        · exact loop1_frame (fun t ht => absurd (mem_names_of_mem ht) hnd.1) h
        · intro w hw
          exact loop1_ws_mono h w (List.mem_append_right _ hw)
      · exact ih hnd.2 hmem h

theorem loop2_noop {src0 dst : List (String × FSTree)}
    {l : List (String × FSTree)} {m : String} (hm : m ∈ namesOf src0) :
    loop2 src0 (some m) dst l = .ok dst := by
  induction l with
  | nil => rfl
  | cons e rest ih =>
    obtain ⟨k, t1⟩ := e
    rw [loop2]
    have hs := findEntry_isSome_of_mem_names hm
    have hne : (findEntry src0 m).isNone = false := by
      cases he : findEntry src0 m with
      | none => rw [he] at hs; simp at hs
      | some u => rfl
    simp only [hne, Bool.false_and, if_false, Bool.false_eq_true]
    exact ih

theorem loop2_none_err (src0 dst : List (String × FSTree))
    (e : String × FSTree) (rest : List (String × FSTree)) :
    loop2 src0 none dst (e :: rest) = .error .nameError := rfl

theorem loop3_frame {dst src0 d : List (String × FSTree)} {n : String}
    (hn : ∀ t, (n, t) ∈ src0 → t.isLink = false)
    (h : loop3 dst src0 = .ok d) :
    findEntry d n = findEntry dst n := by
  induction src0 generalizing dst with
  | nil => rw [loop3] at h; cases h; rfl
  | cons e rest ih =>
    obtain ⟨k, t⟩ := e
    cases t with
    | file c =>
      simp only [loop3] at h
      exact ih (fun t ht => hn t (List.mem_cons_of_mem _ ht)) h
    | dir es =>
      simp only [loop3] at h
      exact ih (fun t ht => hn t (List.mem_cons_of_mem _ ht)) h
    | link r =>
      by_cases hk : k = n
      · subst hk
        have := hn (FSTree.link r) (List.mem_cons_self _ _)
        simp [FSTree.isLink] at this
      · rw [loop3] at h
        split at h
        · simp at h
        · next dst2 heq =>
          obtain ⟨hnone, rfl⟩ := addNew_ok heq
          rw [ih (fun t ht => hn t (List.mem_cons_of_mem _ ht)) h]
          exact findEntry_append_ne _ _ (by
            simp only [namesOf, List.map_cons, List.map_nil, List.mem_singleton]
            exact fun he => hk he.symm)

theorem loop3_add {dst src0 d : List (String × FSTree)} {n : String} {r : List String}
    (hnd : (namesOf src0).Nodup) (hmem : (n, FSTree.link r) ∈ src0)
    (h : loop3 dst src0 = .ok d) :
    findEntry d n = some (.link r) := by
  induction src0 generalizing dst with
  | nil => simp at hmem
  | cons e rest ih =>
    obtain ⟨k, t⟩ := e
    rw [namesOf_cons, List.nodup_cons] at hnd
    rcases List.mem_cons.mp hmem with hh | hh
    · cases hh
      rw [loop3] at h
      split at h
      · simp at h
      · next dst2 heq =>
        obtain ⟨hnone, rfl⟩ := addNew_ok heq
        rw [loop3_frame (fun t ht => absurd (mem_names_of_mem ht) hnd.1) h]
        exact findEntry_append_self _ _ hnone
    · cases t with
      | file c =>
        simp only [loop3] at h
        exact ih hnd.2 hh h
      | dir es =>
        simp only [loop3] at h
        exact ih hnd.2 hh h
      | link r2 =>
        rw [loop3] at h
        split at h
        · simp at h
        · next dst2 heq => exact ih hnd.2 hh h

theorem loop4_frame_left {src0 dst l d : List (String × FSTree)} {n : String}
    (hs : (findEntry src0 n).isSome = true)
    (h : loop4 src0 dst l = .ok d) :
    findEntry d n = findEntry dst n := by
  induction l generalizing dst with
  | nil => rw [loop4] at h; cases h; rfl
  | cons e rest ih =>
    obtain ⟨k, t⟩ := e
    cases t with
    | file c => simp only [loop4] at h; exact ih h
    | dir es => simp only [loop4] at h; exact ih h
    | link r =>
      rw [loop4] at h
      by_cases hg : (findEntry src0 k).isNone = true
      · have hk : k ≠ n := by
          intro he
          subst he
          cases hf : findEntry src0 k with
          | none => rw [hf] at hs; simp at hs
          | some u => rw [hf] at hg; simp at hg
        simp only [hg, if_true] at h
        split at h
        · simp at h
        · next dst2 heq =>
          obtain ⟨hnone, rfl⟩ := addNew_ok heq
          rw [ih h]
          exact findEntry_append_ne _ _ (by
            simp only [namesOf, List.map_cons, List.map_nil, List.mem_singleton]
            exact fun he => hk he.symm)
      · simp only [Bool.not_eq_true] at hg
        simp only [hg, if_false, Bool.false_eq_true] at h
        exact ih h

theorem loop4_frame_nonlink {src0 dst l d : List (String × FSTree)} {n : String}
    (hn : ∀ t, (n, t) ∈ l → t.isLink = false)
    (h : loop4 src0 dst l = .ok d) :
    findEntry d n = findEntry dst n := by
  induction l generalizing dst with
  | nil => rw [loop4] at h; cases h; rfl
  | cons e rest ih =>
    obtain ⟨k, t⟩ := e
    cases t with
    | file c =>
      simp only [loop4] at h
      exact ih (fun t ht => hn t (List.mem_cons_of_mem _ ht)) h
    | dir es =>
      simp only [loop4] at h
      exact ih (fun t ht => hn t (List.mem_cons_of_mem _ ht)) h
    | link r =>
      by_cases hk : k = n
      · subst hk
        have := hn (FSTree.link r) (List.mem_cons_self _ _)
        simp [FSTree.isLink] at this
      · rw [loop4] at h
        by_cases hg : (findEntry src0 k).isNone = true
        · simp only [hg, if_true] at h
          split at h
          · simp at h
          · next dst2 heq =>
            obtain ⟨hnone, rfl⟩ := addNew_ok heq
            rw [ih (fun t ht => hn t (List.mem_cons_of_mem _ ht)) h]
            exact findEntry_append_ne _ _ (by
              simp only [namesOf, List.map_cons, List.map_nil, List.mem_singleton]
              exact fun he => hk he.symm)
        · simp only [Bool.not_eq_true] at hg
          simp only [hg, if_false, Bool.false_eq_true] at h
          exact ih (fun t ht => hn t (List.mem_cons_of_mem _ ht)) h

theorem loop4_add {src0 dst l d : List (String × FSTree)} {n : String} {r : List String}
    (hnd : (namesOf l).Nodup) (hmem : (n, FSTree.link r) ∈ l)
    (hnone : findEntry src0 n = none)
    (h : loop4 src0 dst l = .ok d) :
    findEntry d n = some (.link r) := by
  induction l generalizing dst with
  | nil => simp at hmem
  | cons e rest ih =>
    obtain ⟨k, t⟩ := e
    rw [namesOf_cons, List.nodup_cons] at hnd
    rcases List.mem_cons.mp hmem with hh | hh
    · cases hh
      rw [loop4] at h
      have hg : (findEntry src0 n).isNone = true := by rw [hnone]; rfl
      simp only [hg, if_true] at h
      split at h
      · simp at h
      · next dst2 heq =>
        obtain ⟨hnone2, rfl⟩ := addNew_ok heq
        rw [loop4_frame_nonlink (fun t ht => absurd (mem_names_of_mem ht) hnd.1) h]
        exact findEntry_append_self _ _ hnone2
    · cases t with
      | file c =>
        simp only [loop4] at h
        exact ih hnd.2 hh h
      | dir es =>
        simp only [loop4] at h
        exact ih hnd.2 hh h
      | link r2 =>
        rw [loop4] at h
        by_cases hg : (findEntry src0 k).isNone = true
        · simp only [hg, if_true] at h
          split at h
          · simp at h
          · next dst2 heq => exact ih hnd.2 hh h
        · simp only [Bool.not_eq_true] at hg
          simp only [hg, if_false, Bool.false_eq_true] at h
          exact ih hnd.2 hh h

/-! Lemmas about one whole call of the merge at a given fuel. -/

theorem mergeGo_ok_inv {o : LipoOracle} {fuel : Nat} {p0 p1 pd : List String}
    {src0 src1 dst : List (String × FSTree)} {ws : List Warn}
    (h : mergeGo o fuel p0 p1 pd src0 src1 = .ok (dst, ws)) :
    ∃ fuel2 d1 d2 d3, fuel = fuel2 + 1 ∧
      loop1 o (mergeGo o fuel2) p0 p1 pd src1 src0 [] [] = .ok (d1, ws) ∧
      loop2 src0 (lastName src0) d1 src1 = .ok d2 ∧
      loop3 d2 src0 = .ok d3 ∧
      loop4 src0 d3 src1 = .ok dst := by
  cases fuel with
  | zero => rw [mergeGo] at h; simp at h
  | succ fuel2 =>
    rw [mergeGo] at h
    split at h
    · simp at h
    · next d1 ws1 heq1 =>
      split at h
      · simp at h
      · next d2 heq2 =>
        split at h
        · simp at h
        · next d3 heq3 =>
          split at h
          · simp at h
          · next d4 heq4 =>
            cases h
            exact ⟨fuel2, d1, d2, d3, rfl, heq1, heq2, heq3, heq4⟩

theorem lastName_mem {es : List (String × FSTree)} {m : String}
    (h : lastName es = some m) : m ∈ namesOf es := by
  induction es with
  | nil => simp [lastName] at h
  | cons e rest ih =>
    cases rest with
    | nil =>
      obtain ⟨k, t⟩ := e
      simp [lastName] at h
      rw [namesOf_cons, h]
      exact List.mem_cons_self _ _
    | cons f rs =>
      rw [lastName, List.getLast?_cons_cons] at h
      have := ih (by rw [lastName]; exact h)
      rw [namesOf_cons]
      exact List.mem_cons_of_mem _ this

theorem loop2_merge_noop {src0 d1 d2 src1 : List (String × FSTree)}
    (hne : src0 ≠ [])
    (h : loop2 src0 (lastName src0) d1 src1 = .ok d2) : d2 = d1 := by
  cases hl : lastName src0 with
  | none =>
    exfalso
    cases src0 with
    | nil => exact hne rfl
    | cons e rest =>
      rw [lastName] at hl
      cases hg : List.getLast? (e :: rest) with
      | none =>
        have : e :: rest = [] := List.getLast?_eq_none_iff.mp hg
        simp at this
      | some p => rw [hg] at hl; simp at hl
  | some m =>
    rw [hl, loop2_noop (lastName_mem hl)] at h
    cases h
    rfl

theorem src_entry_unique {es : List (String × FSTree)} {n : String} {t u : FSTree}
    (hnd : (namesOf es).Nodup) (hf : findEntry es n = some t)
    (hm : (n, u) ∈ es) : u = t := by
  have h2 := mem_findEntry_nodup hnd hm
  rw [hf] at h2
  cases h2
  rfl

theorem merge_chain {src0 src1 d1 d2 d3 dst : List (String × FSTree)} {n : String}
    (hne : src0 ≠ [])
    (hsome : (findEntry src0 n).isSome = true)
    (hlinks : ∀ t, (n, t) ∈ src0 → t.isLink = false)
    (hl2 : loop2 src0 (lastName src0) d1 src1 = .ok d2)
    (hl3 : loop3 d2 src0 = .ok d3)
    (hl4 : loop4 src0 d3 src1 = .ok dst) :
    findEntry dst n = findEntry d1 n := by
  obtain rfl := loop2_merge_noop hne hl2
  rw [loop4_frame_left hsome hl4, loop3_frame hlinks hl3]

theorem mergeGo_left_empty {o : LipoOracle} {fuel : Nat} {p0 p1 pd : List String}
    {src1 dst : List (String × FSTree)} {ws : List Warn}
    (h : mergeGo o fuel p0 p1 pd [] src1 = .ok (dst, ws)) :
    src1 = [] ∧ dst = [] ∧ ws = [] := by
  obtain ⟨fuel2, d1, d2, d3, rfl, h1, h2, h3, h4⟩ := mergeGo_ok_inv h
  rw [loop1] at h1
  cases h1
  cases src1 with
  | nil =>
    rw [loop2] at h2
    cases h2
    rw [loop3] at h3
    cases h3
    rw [loop4] at h4
    cases h4
    exact ⟨rfl, rfl, rfl⟩
  | cons e rest =>
    exfalso
    obtain ⟨k, t⟩ := e
    rw [show lastName ([] : List (String × FSTree)) = none from rfl,
        loop2_none_err] at h2
    simp at h2

theorem merge_file_eq {o : LipoOracle} {fuel : Nat} {p0 p1 pd : List String}
    {src0 src1 dst : List (String × FSTree)} {ws : List Warn} {n : String}
    {c : List Nat}
    (hnd0 : (namesOf src0).Nodup)
    (h : mergeGo o fuel p0 p1 pd src0 src1 = .ok (dst, ws))
    (h0 : findEntry src0 n = some (.file c))
    (h1 : findEntry src1 n = some (.file c)) :
    findEntry dst n = some (.file c) := by
  obtain ⟨fuel2, d1, d2, d3, rfl, hl1, hl2, hl3, hl4⟩ := mergeGo_ok_inv h
  have hne : src0 ≠ [] := by
    intro he; subst he; simp [findEntry] at h0
  have hsome : (findEntry src0 n).isSome = true := by rw [h0]; rfl
  have hlinks : ∀ t, (n, t) ∈ src0 → t.isLink = false := by
    intro t ht
    rw [src_entry_unique hnd0 h0 ht]
    rfl
  obtain ⟨dstA, dstB, wsB, hstep, hfd, hws⟩ :=
    loop1_entry hnd0 (findEntry_some_mem h0) hl1
  rw [step1_file_eq h1] at hstep
  cases hstep
  rw [findEntry_setEntry_self] at hfd
  rw [merge_chain hne hsome hlinks hl2 hl3 hl4, hfd]

theorem merge_file_left_only {o : LipoOracle} {fuel : Nat} {p0 p1 pd : List String}
    {src0 src1 dst : List (String × FSTree)} {ws : List Warn} {n : String}
    {c : List Nat}
    (hnd0 : (namesOf src0).Nodup)
    (h : mergeGo o fuel p0 p1 pd src0 src1 = .ok (dst, ws))
    (h0 : findEntry src0 n = some (.file c))
    (h1 : findEntry src1 n = none) :
    findEntry dst n = some (.file c) := by
  obtain ⟨fuel2, d1, d2, d3, rfl, hl1, hl2, hl3, hl4⟩ := mergeGo_ok_inv h
  have hne : src0 ≠ [] := by
    intro he; subst he; simp [findEntry] at h0
  have hsome : (findEntry src0 n).isSome = true := by rw [h0]; rfl
  have hlinks : ∀ t, (n, t) ∈ src0 → t.isLink = false := by
    intro t ht
    rw [src_entry_unique hnd0 h0 ht]
    rfl
  obtain ⟨dstA, dstB, wsB, hstep, hfd, hws⟩ :=
    loop1_entry hnd0 (findEntry_some_mem h0) hl1
  rw [step1_file_none h1] at hstep
  cases hstep
  rw [findEntry_setEntry_self] at hfd
  rw [merge_chain hne hsome hlinks hl2 hl3 hl4, hfd]

theorem merge_left_link {o : LipoOracle} {fuel : Nat} {p0 p1 pd : List String}
    {src0 src1 dst : List (String × FSTree)} {ws : List Warn} {n : String}
    {r : List String}
    (hnd0 : (namesOf src0).Nodup)
    (h : mergeGo o fuel p0 p1 pd src0 src1 = .ok (dst, ws))
    (h0 : findEntry src0 n = some (.link r)) :
    findEntry dst n = some (.link r) := by
  obtain ⟨fuel2, d1, d2, d3, rfl, hl1, hl2, hl3, hl4⟩ := mergeGo_ok_inv h
  have hne : src0 ≠ [] := by
    intro he; subst he; simp [findEntry] at h0
  have hsome : (findEntry src0 n).isSome = true := by rw [h0]; rfl
  obtain rfl := loop2_merge_noop hne hl2
  rw [loop4_frame_left hsome hl4]
  exact loop3_add hnd0 (findEntry_some_mem h0) hl3

theorem merge_dir_dir {o : LipoOracle} {fuel : Nat} {p0 p1 pd : List String}
    {src0 src1 dst : List (String × FSTree)} {ws : List Warn} {n : String}
    {es0 es1 : List (String × FSTree)}
    (hnd0 : (namesOf src0).Nodup)
    (h : mergeGo o fuel p0 p1 pd src0 src1 = .ok (dst, ws))
    (h0 : findEntry src0 n = some (.dir es0))
    (h1 : findEntry src1 n = some (.dir es1)) :
    ∃ fuel2 d2 ws2, fuel = fuel2 + 1 ∧
      mergeGo o fuel2 (p0 ++ [n]) (p1 ++ [n]) (pd ++ [n]) es0 es1 = .ok (d2, ws2) ∧
      findEntry dst n = some (.dir d2) ∧ ∀ w ∈ ws2, w ∈ ws := by
  obtain ⟨fuel2, d1, d2x, d3, rfl, hl1, hl2, hl3, hl4⟩ := mergeGo_ok_inv h
  have hne : src0 ≠ [] := by
    intro he; subst he; simp [findEntry] at h0
  have hsome : (findEntry src0 n).isSome = true := by rw [h0]; rfl
  have hlinks : ∀ t, (n, t) ∈ src0 → t.isLink = false := by
    intro t ht
    rw [src_entry_unique hnd0 h0 ht]
    rfl
  obtain ⟨dstA, dstB, wsB, hstep, hfd, hws⟩ :=
    loop1_entry hnd0 (findEntry_some_mem h0) hl1
  obtain ⟨hnoneA, d2, hrec, rfl⟩ :=
    step1_dir_right (show (FSTree.dir es0).isLink = false from rfl) h1 hstep
  rw [show (FSTree.dir es0).childrenOf = es0 from rfl] at hrec
  rw [findEntry_append_self _ _ hnoneA] at hfd
  refine ⟨fuel2, d2, wsB, rfl, hrec, ?_, hws⟩
  rw [merge_chain hne hsome hlinks hl2 hl3 hl4, hfd]

theorem merge_dir_nonmatch {o : LipoOracle} {fuel : Nat} {p0 p1 pd : List String}
    {src0 src1 dst : List (String × FSTree)} {ws : List Warn} {n : String}
    {es0 : List (String × FSTree)}
    (hnd0 : (namesOf src0).Nodup)
    (h : mergeGo o fuel p0 p1 pd src0 src1 = .ok (dst, ws))
    (h0 : findEntry src0 n = some (.dir es0))
    (h1 : ∀ t1, findEntry src1 n = some t1 → t1.isDir = false) : False := by
  obtain ⟨fuel2, d1, d2, d3, rfl, hl1, hl2, hl3, hl4⟩ := mergeGo_ok_inv h
  obtain ⟨dstA, dstB, wsB, hstep, hfd, hws⟩ :=
    loop1_entry hnd0 (findEntry_some_mem h0) hl1
  cases hf1 : findEntry src1 n with
  | none =>
    rw [step1_dir_none hf1] at hstep
    simp at hstep
  | some t1 =>
    rw [step1_dir_nondir hf1 (h1 t1 hf1)] at hstep
    simp at hstep

theorem merge_file_dir {o : LipoOracle} {fuel : Nat} {p0 p1 pd : List String}
    {src0 src1 dst : List (String × FSTree)} {ws : List Warn} {n : String}
    {c : List Nat} {es1 : List (String × FSTree)}
    (hnd0 : (namesOf src0).Nodup)
    (h : mergeGo o fuel p0 p1 pd src0 src1 = .ok (dst, ws))
    (h0 : findEntry src0 n = some (.file c))
    (h1 : findEntry src1 n = some (.dir es1)) :
    es1 = [] ∧ findEntry dst n = some (.dir []) := by
  obtain ⟨fuel2, d1, d2x, d3, rfl, hl1, hl2, hl3, hl4⟩ := mergeGo_ok_inv h
  have hne : src0 ≠ [] := by
    intro he; subst he; simp [findEntry] at h0
  have hsome : (findEntry src0 n).isSome = true := by rw [h0]; rfl
  have hlinks : ∀ t, (n, t) ∈ src0 → t.isLink = false := by
    intro t ht
    rw [src_entry_unique hnd0 h0 ht]
    rfl
  obtain ⟨dstA, dstB, wsB, hstep, hfd, hws⟩ :=
    loop1_entry hnd0 (findEntry_some_mem h0) hl1
  obtain ⟨hnoneA, d2, hrec, rfl⟩ :=
    step1_dir_right (show (FSTree.file c).isLink = false from rfl) h1 hstep
  rw [show (FSTree.file c).childrenOf = [] from rfl] at hrec
  obtain ⟨rfl, rfl, rfl⟩ := mergeGo_left_empty hrec
  rw [findEntry_append_self _ _ hnoneA] at hfd
  refine ⟨rfl, ?_⟩
  rw [merge_chain hne hsome hlinks hl2 hl3 hl4, hfd]

theorem merge_file_diff {o : LipoOracle} {fuel : Nat} {p0 p1 pd : List String}
    {src0 src1 dst : List (String × FSTree)} {ws : List Warn} {n : String}
    {c c2 : List Nat}
    (hnd0 : (namesOf src0).Nodup)
    (h : mergeGo o fuel p0 p1 pd src0 src1 = .ok (dst, ws))
    (h0 : findEntry src0 n = some (.file c))
    (h1 : findEntry src1 n = some (.file c2))
    (hne2 : c ≠ c2) :
    (∀ u, o c c2 = some u → findEntry dst n = some (.file u)) ∧
    (o c c2 = none → findEntry dst n = some (.file c) ∧
      Warn.mk (p0 ++ [n]) (p1 ++ [n]) (p0 ++ [n]) ∈ ws) := by
  obtain ⟨fuel2, d1, d2x, d3, rfl, hl1, hl2, hl3, hl4⟩ := mergeGo_ok_inv h
  have hne : src0 ≠ [] := by
    intro he; subst he; simp [findEntry] at h0
  have hsome : (findEntry src0 n).isSome = true := by rw [h0]; rfl
  have hlinks : ∀ t, (n, t) ∈ src0 → t.isLink = false := by
    intro t ht
    rw [src_entry_unique hnd0 h0 ht]
    rfl
  obtain ⟨dstA, dstB, wsB, hstep, hfd, hws⟩ :=
    loop1_entry hnd0 (findEntry_some_mem h0) hl1
  have hchain := merge_chain hne hsome hlinks hl2 hl3 hl4
  constructor
  · intro u hou
    rw [step1_file_diff_ok h1 hne2 hou] at hstep
    cases hstep
    rw [findEntry_setEntry_self] at hfd
    rw [hchain, hfd]
  · intro hou
    rw [step1_file_diff_fail h1 hne2 hou] at hstep
    cases hstep
    rw [findEntry_setEntry_self] at hfd
    refine ⟨by rw [hchain, hfd], ?_⟩
    exact hws _ (List.mem_singleton.mpr rfl)

theorem merge_file_vs_link {o : LipoOracle} {fuel : Nat} {p0 p1 pd : List String}
    {src0 src1 dst : List (String × FSTree)} {ws : List Warn} {n : String}
    {c : List Nat} {r : List String}
    (hnd0 : (namesOf src0).Nodup)
    (h : mergeGo o fuel p0 p1 pd src0 src1 = .ok (dst, ws))
    (h0 : findEntry src0 n = some (.file c))
    (h1 : findEntry src1 n = some (.link r)) :
    findEntry dst n = some (.file c) := by
  obtain ⟨fuel2, d1, d2x, d3, rfl, hl1, hl2, hl3, hl4⟩ := mergeGo_ok_inv h
  have hne : src0 ≠ [] := by
    intro he; subst he; simp [findEntry] at h0
  have hsome : (findEntry src0 n).isSome = true := by rw [h0]; rfl
  have hlinks : ∀ t, (n, t) ∈ src0 → t.isLink = false := by
    intro t ht
    rw [src_entry_unique hnd0 h0 ht]
    rfl
  obtain ⟨dstA, dstB, wsB, hstep, hfd, hws⟩ :=
    loop1_entry hnd0 (findEntry_some_mem h0) hl1
  rw [step1_file_link h1] at hstep
  cases hstep
  rw [findEntry_setEntry_self] at hfd
  rw [merge_chain hne hsome hlinks hl2 hl3 hl4, hfd]

theorem merge_right_link {o : LipoOracle} {fuel : Nat} {p0 p1 pd : List String}
    {src0 src1 dst : List (String × FSTree)} {ws : List Warn} {n : String}
    {r : List String}
    (hnd1 : (namesOf src1).Nodup)
    (h : mergeGo o fuel p0 p1 pd src0 src1 = .ok (dst, ws))
    (h0 : findEntry src0 n = none)
    (h1 : findEntry src1 n = some (.link r)) :
    findEntry dst n = some (.link r) := by
  obtain ⟨fuel2, d1, d2, d3, rfl, hl1, hl2, hl3, hl4⟩ := mergeGo_ok_inv h
  exact loop4_add hnd1 (findEntry_some_mem h1) h0 hl4

theorem merge_right_dropped {o : LipoOracle} {fuel : Nat} {p0 p1 pd : List String}
    {src0 src1 dst : List (String × FSTree)} {ws : List Warn} {n : String}
    (hnd1 : (namesOf src1).Nodup)
    (h : mergeGo o fuel p0 p1 pd src0 src1 = .ok (dst, ws))
    (h0 : findEntry src0 n = none)
    (h1 : ∀ t1, findEntry src1 n = some t1 → t1.isLink = false) :
    findEntry dst n = none := by
  obtain ⟨fuel2, d1, d2x, d3, rfl, hl1, hl2, hl3, hl4⟩ := mergeGo_ok_inv h
  have hn0 : n ∉ namesOf src0 := (findEntry_eq_none_iff _ _).mp h0
  by_cases hsrc0 : src0 = []
  · subst hsrc0
    obtain ⟨rfl, rfl, rfl⟩ := mergeGo_left_empty h
    rfl
  · have hd1 : findEntry d1 n = none := by
      rw [loop1_frame (fun t ht => absurd (mem_names_of_mem ht) hn0) hl1]
      rfl
    obtain rfl := loop2_merge_noop hsrc0 hl2
    have hd3 : findEntry d3 n = none := by
      rw [loop3_frame (fun t ht => absurd (mem_names_of_mem ht) hn0) hl3, hd1]
    rw [loop4_frame_nonlink
      (fun t ht => h1 t (mem_findEntry_nodup hnd1 ht)) hl4, hd3]

/-! Path-level lemmas: lifting the per-name facts through directory recursion. -/

theorem findPath_one (es : List (String × FSTree)) (n : String) :
    findPath es [n] = findEntry es n := rfl

theorem findPath_cons_intro {es es2 : List (String × FSTree)} {n m : String}
    {rest : List String}
    (hf : findEntry es n = some (.dir es2)) :
    findPath es (n :: m :: rest) = findPath es2 (m :: rest) := by
  rw [findPath, hf]

theorem findPath_cons_inv {es : List (String × FSTree)} {n m : String}
    {rest : List String} {t : FSTree}
    (h : findPath es (n :: m :: rest) = some t) :
    ∃ es2, findEntry es n = some (.dir es2) ∧ findPath es2 (m :: rest) = some t := by
  rw [findPath] at h
  split at h
  · next es2 heq => exact ⟨es2, heq, h⟩
  · simp at h

theorem wfEntries_dir_child {es : List (String × FSTree)} {n : String}
    {es2 : List (String × FSTree)}
    (h : wfEntries es = true) (hf : findEntry es n = some (.dir es2)) :
    wfEntries es2 = true :=
  wfTree_dir ▸ wfEntries_findEntry h hf

/-- Every relative path holding byte-identical regular files on both sides is
present in the merge output with that content, provided the merge completed. -/
theorem mergeGo_path_file_eq (o : LipoOracle) :
    ∀ (P : List String) (fuel : Nat) (p0 p1 pd : List String)
      (src0 src1 dst : List (String × FSTree)) (ws : List Warn) (c : List Nat),
      wfEntries src0 = true → wfEntries src1 = true →
      mergeGo o fuel p0 p1 pd src0 src1 = .ok (dst, ws) →
      findPath src0 P = some (.file c) → findPath src1 P = some (.file c) →
      findPath dst P = some (.file c)
  | [] => by
    intro fuel p0 p1 pd src0 src1 dst ws c hwf0 hwf1 h h0 h1
    simp [findPath] at h0
  | [n] => by
    intro fuel p0 p1 pd src0 src1 dst ws c hwf0 hwf1 h h0 h1
    rw [findPath_one] at h0 h1 ⊢
    exact merge_file_eq (wfEntries_nodup hwf0) h h0 h1
  | n :: m :: rest => by
    intro fuel p0 p1 pd src0 src1 dst ws c hwf0 hwf1 h h0 h1
    obtain ⟨es0, hf0, hp0⟩ := findPath_cons_inv h0
    obtain ⟨es1, hf1, hp1⟩ := findPath_cons_inv h1
    obtain ⟨fuel2, d2, ws2, rfl, hm, hfd, hws⟩ :=
      merge_dir_dir (wfEntries_nodup hwf0) h hf0 hf1
    rw [findPath_cons_intro hfd]
    exact mergeGo_path_file_eq o (m :: rest) fuel2 (p0 ++ [n]) (p1 ++ [n])
      (pd ++ [n]) es0 es1 d2 ws2 c
      (wfEntries_dir_child hwf0 hf0) (wfEntries_dir_child hwf1 hf1) hm hp0 hp1

/-- Every left-hand symlink is recreated at its own relative path with its
own relative target, provided the merge completed. -/
theorem mergeGo_path_left_link (o : LipoOracle) :
    ∀ (P : List String) (fuel : Nat) (p0 p1 pd : List String)
      (src0 src1 dst : List (String × FSTree)) (ws : List Warn) (r : List String),
      wfEntries src0 = true → wfEntries src1 = true →
      mergeGo o fuel p0 p1 pd src0 src1 = .ok (dst, ws) →
      findPath src0 P = some (.link r) →
      findPath dst P = some (.link r)
  | [] => by
    intro fuel p0 p1 pd src0 src1 dst ws r hwf0 hwf1 h h0
    simp [findPath] at h0
  | [n] => by
    intro fuel p0 p1 pd src0 src1 dst ws r hwf0 hwf1 h h0
    rw [findPath_one] at h0 ⊢
    exact merge_left_link (wfEntries_nodup hwf0) h h0
  | n :: m :: rest => by
    intro fuel p0 p1 pd src0 src1 dst ws r hwf0 hwf1 h h0
    obtain ⟨es0, hf0, hp0⟩ := findPath_cons_inv h0
    cases hf1 : findEntry src1 n with
    | none =>
      exact absurd hf1 (fun hf1 =>
        merge_dir_nonmatch (wfEntries_nodup hwf0) h hf0
          (fun t1 ht => by rw [hf1] at ht; cases ht))
    | some t1 =>
      cases t1 with
      | file c2 =>
        exact absurd hf1 (fun hf1 =>
          merge_dir_nonmatch (wfEntries_nodup hwf0) h hf0
            (fun t1 ht => by rw [hf1] at ht; cases ht; rfl))
      | link r2 =>
        exact absurd hf1 (fun hf1 =>
          merge_dir_nonmatch (wfEntries_nodup hwf0) h hf0
            (fun t1 ht => by rw [hf1] at ht; cases ht; rfl))
      | dir es1 =>
        obtain ⟨fuel2, d2, ws2, rfl, hm, hfd, hws⟩ :=
          merge_dir_dir (wfEntries_nodup hwf0) h hf0 hf1
        rw [findPath_cons_intro hfd]
        exact mergeGo_path_left_link o (m :: rest) fuel2 (p0 ++ [n]) (p1 ++ [n])
          (pd ++ [n]) es0 es1 d2 ws2 r
          (wfEntries_dir_child hwf0 hf0) (wfEntries_dir_child hwf1 hf1) hm hp0

/-- All components of a relative path except its last exist as directories in
the given tree (trivially true for a top-level name). -/
def parentDirsOnLeft (src0 : List (String × FSTree)) : List String → Bool
  | [] => true
  | [_] => true
  | n :: m :: rest =>
    match findEntry src0 n with
    | some (FSTree.dir es2) => parentDirsOnLeft es2 (m :: rest)
    | _ => false

/-- A right-hand symlink at a path where the left tree has no entry, and
whose parent directory chain exists on the left, is recreated at its own
relative path with its own relative target, provided the merge completed. -/
theorem mergeGo_path_right_link (o : LipoOracle) :
    ∀ (P : List String) (fuel : Nat) (p0 p1 pd : List String)
      (src0 src1 dst : List (String × FSTree)) (ws : List Warn) (r : List String),
      wfEntries src0 = true → wfEntries src1 = true →
      mergeGo o fuel p0 p1 pd src0 src1 = .ok (dst, ws) →
      findPath src1 P = some (.link r) →
      findPath src0 P = none →
      parentDirsOnLeft src0 P = true →
      findPath dst P = some (.link r)
  | [] => by
    intro fuel p0 p1 pd src0 src1 dst ws r hwf0 hwf1 h h1 h0 hpar
    simp [findPath] at h1
  | [n] => by
    intro fuel p0 p1 pd src0 src1 dst ws r hwf0 hwf1 h h1 h0 hpar
    rw [findPath_one] at h0 h1 ⊢
    exact merge_right_link (wfEntries_nodup hwf1) h h0 h1
  | n :: m :: rest => by
    intro fuel p0 p1 pd src0 src1 dst ws r hwf0 hwf1 h h1 h0 hpar
    obtain ⟨es1, hf1, hp1⟩ := findPath_cons_inv h1
    rw [parentDirsOnLeft] at hpar
    cases hf0 : findEntry src0 n with
    | none => rw [hf0] at hpar; simp at hpar
    | some t0 =>
      cases t0 with
      | file c => rw [hf0] at hpar; simp at hpar
      | link r2 => rw [hf0] at hpar; simp at hpar
      | dir es0 =>
        rw [hf0] at hpar
        obtain ⟨fuel2, d2, ws2, rfl, hm, hfd, hws⟩ :=
          merge_dir_dir (wfEntries_nodup hwf0) h hf0 hf1
        rw [findPath_cons_intro hf0] at h0
        rw [findPath_cons_intro hfd]
        exact mergeGo_path_right_link o (m :: rest) fuel2 (p0 ++ [n]) (p1 ++ [n])
          (pd ++ [n]) es0 es1 d2 ws2 r
          (wfEntries_dir_child hwf0 hf0) (wfEntries_dir_child hwf1 hf1) hm hp1 h0 hpar

/-- A right-hand symlink at a path where the left tree holds a non-link entry
is not recreated: the merge output at that path exists and is not a symlink,
provided the merge completed. -/
theorem mergeGo_path_shadowed_right_link (o : LipoOracle) :
    ∀ (P : List String) (fuel : Nat) (p0 p1 pd : List String)
      (src0 src1 dst : List (String × FSTree)) (ws : List Warn) (r : List String)
      (t : FSTree),
      wfEntries src0 = true → wfEntries src1 = true →
      mergeGo o fuel p0 p1 pd src0 src1 = .ok (dst, ws) →
      findPath src1 P = some (.link r) →
      findPath src0 P = some t →
      t.isLink = false →
      ∃ dt, findPath dst P = some dt ∧ dt.isLink = false
  | [] => by
    intro fuel p0 p1 pd src0 src1 dst ws r t hwf0 hwf1 h h1 h0 hnl
    simp [findPath] at h1
  | [n] => by
    intro fuel p0 p1 pd src0 src1 dst ws r t hwf0 hwf1 h h1 h0 hnl
    rw [findPath_one] at h0 h1 ⊢
    cases t with
    | link r2 => simp [FSTree.isLink] at hnl
    | file c =>
      exact ⟨.file c, merge_file_vs_link (wfEntries_nodup hwf0) h h0 h1, rfl⟩
    | dir es0 =>
      exact absurd h1 (fun h1 =>
        merge_dir_nonmatch (wfEntries_nodup hwf0) h h0
          (fun t1 ht => by rw [h1] at ht; cases ht; rfl))
  | n :: m :: rest => by
    intro fuel p0 p1 pd src0 src1 dst ws r t hwf0 hwf1 h h1 h0 hnl
    obtain ⟨es0, hf0, hp0⟩ := findPath_cons_inv h0
    obtain ⟨es1, hf1, hp1⟩ := findPath_cons_inv h1
    obtain ⟨fuel2, d2, ws2, rfl, hm, hfd, hws⟩ :=
      merge_dir_dir (wfEntries_nodup hwf0) h hf0 hf1
    rw [findPath_cons_intro hfd]
    exact mergeGo_path_shadowed_right_link o (m :: rest) fuel2 (p0 ++ [n])
      (p1 ++ [n]) (pd ++ [n]) es0 es1 d2 ws2 r t
      (wfEntries_dir_child hwf0 hf0) (wfEntries_dir_child hwf1 hf1) hm hp1 hp0 hnl

/-- A regular file on the left colliding with a directory on the right is
silently resolved in favor of an empty directory: the merge can only complete
when the right directory is empty, and then writes an empty directory at that
path with no diagnostic. -/
theorem mergeGo_path_file_dir (o : LipoOracle) :
    ∀ (P : List String) (fuel : Nat) (p0 p1 pd : List String)
      (src0 src1 dst : List (String × FSTree)) (ws : List Warn) (c : List Nat)
      (es1 : List (String × FSTree)),
      wfEntries src0 = true → wfEntries src1 = true →
      mergeGo o fuel p0 p1 pd src0 src1 = .ok (dst, ws) →
      findPath src0 P = some (.file c) →
      findPath src1 P = some (.dir es1) →
      es1 = [] ∧ findPath dst P = some (.dir [])
  | [] => by
    intro fuel p0 p1 pd src0 src1 dst ws c es1 hwf0 hwf1 h h0 h1
    simp [findPath] at h0
  | [n] => by
    intro fuel p0 p1 pd src0 src1 dst ws c es1 hwf0 hwf1 h h0 h1
    rw [findPath_one] at h0 h1 ⊢
    exact merge_file_dir (wfEntries_nodup hwf0) h h0 h1
  | n :: m :: rest => by
    intro fuel p0 p1 pd src0 src1 dst ws c es1 hwf0 hwf1 h h0 h1
    obtain ⟨es0, hf0, hp0⟩ := findPath_cons_inv h0
    obtain ⟨es1b, hf1, hp1⟩ := findPath_cons_inv h1
    obtain ⟨fuel2, d2, ws2, rfl, hm, hfd, hws⟩ :=
      merge_dir_dir (wfEntries_nodup hwf0) h hf0 hf1
    rw [findPath_cons_intro hfd]
    exact mergeGo_path_file_dir o (m :: rest) fuel2 (p0 ++ [n]) (p1 ++ [n])
      (pd ++ [n]) es0 es1b d2 ws2 c es1
      (wfEntries_dir_child hwf0 hf0) (wfEntries_dir_child hwf1 hf1) hm hp0 hp1

/-- A directory on the left colliding with a non-directory on the right (or
with nothing) makes the merge raise an exception: it never completes. -/
theorem mergeGo_path_dir_nonmatch (o : LipoOracle) :
    ∀ (P : List String) (fuel : Nat) (p0 p1 pd : List String)
      (src0 src1 dst : List (String × FSTree)) (ws : List Warn)
      (es0 : List (String × FSTree)) (t1 : FSTree),
      wfEntries src0 = true → wfEntries src1 = true →
      mergeGo o fuel p0 p1 pd src0 src1 = .ok (dst, ws) →
      findPath src0 P = some (.dir es0) →
      findPath src1 P = some t1 →
      t1.isDir = false →
      False
  | [] => by
    intro fuel p0 p1 pd src0 src1 dst ws es0 t1 hwf0 hwf1 h h0 h1 hnd
    simp [findPath] at h0
  | [n] => by
    intro fuel p0 p1 pd src0 src1 dst ws es0 t1 hwf0 hwf1 h h0 h1 hnd
    rw [findPath_one] at h0 h1
    exact merge_dir_nonmatch (wfEntries_nodup hwf0) h h0
      (fun t2 ht => by rw [h1] at ht; cases ht; exact hnd)
  | n :: m :: rest => by
    intro fuel p0 p1 pd src0 src1 dst ws es0 t1 hwf0 hwf1 h h0 h1 hnd
    obtain ⟨es0b, hf0, hp0⟩ := findPath_cons_inv h0
    obtain ⟨es1b, hf1, hp1⟩ := findPath_cons_inv h1
    obtain ⟨fuel2, d2, ws2, rfl, hm, hfd, hws⟩ :=
      merge_dir_dir (wfEntries_nodup hwf0) h hf0 hf1
    exact mergeGo_path_dir_nonmatch o (m :: rest) fuel2 (p0 ++ [n]) (p1 ++ [n])
      (pd ++ [n]) es0b es1b d2 ws2 es0 t1
      (wfEntries_dir_child hwf0 hf0) (wfEntries_dir_child hwf1 hf1) hm hp0 hp1 hnd

/-- Differing regular files whose lipo invocation fails fall back to the left
content and record the diagnostic naming both inputs and the kept path,
provided the merge completed. -/
theorem mergeGo_path_file_diff_fail (o : LipoOracle) :
    ∀ (P : List String) (fuel : Nat) (p0 p1 pd : List String)
      (src0 src1 dst : List (String × FSTree)) (ws : List Warn) (c c2 : List Nat),
      wfEntries src0 = true → wfEntries src1 = true →
      mergeGo o fuel p0 p1 pd src0 src1 = .ok (dst, ws) →
      findPath src0 P = some (.file c) →
      findPath src1 P = some (.file c2) →
      c ≠ c2 →
      o c c2 = none →
      findPath dst P = some (.file c) ∧
        Warn.mk (p0 ++ P) (p1 ++ P) (p0 ++ P) ∈ ws
  | [] => by
    intro fuel p0 p1 pd src0 src1 dst ws c c2 hwf0 hwf1 h h0 h1 hne hou
    simp [findPath] at h0
  | [n] => by
    intro fuel p0 p1 pd src0 src1 dst ws c c2 hwf0 hwf1 h h0 h1 hne hou
    rw [findPath_one] at h0 h1 ⊢
    exact (merge_file_diff (wfEntries_nodup hwf0) h h0 h1 hne).2 hou
  | n :: m :: rest => by
    intro fuel p0 p1 pd src0 src1 dst ws c c2 hwf0 hwf1 h h0 h1 hne hou
    obtain ⟨es0, hf0, hp0⟩ := findPath_cons_inv h0
    obtain ⟨es1, hf1, hp1⟩ := findPath_cons_inv h1
    obtain ⟨fuel2, d2, ws2, rfl, hm, hfd, hws⟩ :=
      merge_dir_dir (wfEntries_nodup hwf0) h hf0 hf1
    obtain ⟨hdst, hwarn⟩ := mergeGo_path_file_diff_fail o (m :: rest) fuel2
      (p0 ++ [n]) (p1 ++ [n]) (pd ++ [n]) es0 es1 d2 ws2 c c2
      (wfEntries_dir_child hwf0 hf0) (wfEntries_dir_child hwf1 hf1) hm hp0 hp1 hne hou
    refine ⟨by rw [findPath_cons_intro hfd]; exact hdst, ?_⟩
    have hassoc : ∀ (q : List String), q ++ [n] ++ (m :: rest) = q ++ (n :: m :: rest) := by
      intro q
      rw [List.append_assoc]
      rfl
    rw [hassoc, hassoc] at hwarn
    exact hws _ hwarn

/-- With an empty left listing the first loop never binds newpath0, and the
second loop reads it on its first iteration: the merge raises NameError
whenever the right listing is non-empty. -/
theorem mergeGo_left_empty_crashes (o : LipoOracle) (fuel : Nat)
    (p0 p1 pd : List String) (k : String) (t : FSTree)
    (rest : List (String × FSTree)) :
    mergeGo o (fuel + 1) p0 p1 pd [] ((k, t) :: rest) = .error .nameError := rfl

/-! Model of the build driver and universal assembly controller:
the build function at lines 188..229. External processes are events in a
trace; their exit status comes from an oracle carried by the environment. -/

/-- One external process invocation by subprocess.check_call or
subprocess.call: the argument vector, the environment overrides passed via
the env keyword, and the working directory. -/
structure ProcCall where
  argv : List String
  envOv : List (String × String)
  cwd : Option String
deriving Repr, DecidableEq

/-- Observable events of one run of build(). -/
inductive Ev where
  | mkdirEv (path : String)
  | rmtreeEv (path : String)
  | callEv (c : ProcCall)
  | mergeEv
deriving Repr, DecidableEq

/-- Environment of a run: exit-status oracle for external calls, filesystem
state read by the script, the two built release trees, the lipo oracle, and
the configuration normally filled in by parse_args. -/
structure BuildEnv where
  exitCode : ProcCall → Int
  archDirExists : String → Bool
  dstExists : Bool
  tree0 : List (String × FSTree)
  tree1 : List (String × FSTree)
  lipoO : LipoOracle
  buildTarget : String
  dstApp : String
  codesignIdentity : String
  pkgConfig : String → String
  qt5Path : String → String

/-- The fixed architecture list at line 79. -/
def architectures : List String := ["x86_64", "arm64"]

/-- The per-architecture minimum macOS version map at lines 82..85. -/
def macOSDeploymentTarget (arch : String) : String :=
  (([("arm64", "10.14.0"), ("x86_64", "10.12.0")].lookup arch).getD "")

/-- The cmake project-generation call at lines 200..205, with the three
environment overrides of lines 195..198. -/
def cmakeCall (env : BuildEnv) (arch : String) : ProcCall :=
  { argv := ["arch", "-" ++ arch, "cmake", "../../", "-G", "Xcode",
             "-DCMAKE_OSX_DEPLOYMENT_TARGET=" ++ macOSDeploymentTarget arch],
    envOv := [("PKG_CONFIG_PATH", env.pkgConfig arch),
              ("Qt5_DIR", env.qt5Path arch),
              ("CMAKE_OSX_ARCHITECTURES", arch)],
    cwd := some arch }

/-- The xcodebuild build-execution call at lines 208..211. -/
def xcodebuildCall (env : BuildEnv) (arch : String) : ProcCall :=
  { argv := ["xcodebuild", "-project", "dolphin-emu.xcodeproj",
             "-target", env.buildTarget, "-configuration", "Release"],
    envOv := [],
    cwd := some arch }

/-- The codesign call at lines 228..229 for one top-level artifact. -/
def codesignCall (env : BuildEnv) (name : String) : ProcCall :=
  { argv := ["codesign", "--deep", "--force", "-s", env.codesignIdentity,
             env.dstApp ++ "/" ++ name],
    envOv := [],
    cwd := none }

/-- One iteration of the architecture loop at lines 190..211: create the
build directory only when missing, then unconditionally invoke cmake, then
xcodebuild; a non-zero status from either check_call aborts with that call. -/
def buildArch (env : BuildEnv) (arch : String) : List Ev × Option ProcCall :=
  if env.exitCode (cmakeCall env arch) ≠ 0 then
    ((if env.archDirExists arch then [] else [Ev.mkdirEv arch]) ++
       [Ev.callEv (cmakeCall env arch)],
     some (cmakeCall env arch))
  else if env.exitCode (xcodebuildCall env arch) ≠ 0 then
    ((if env.archDirExists arch then [] else [Ev.mkdirEv arch]) ++
       [Ev.callEv (cmakeCall env arch), Ev.callEv (xcodebuildCall env arch)],
     some (xcodebuildCall env arch))
  else
    ((if env.archDirExists arch then [] else [Ev.mkdirEv arch]) ++
       [Ev.callEv (cmakeCall env arch), Ev.callEv (xcodebuildCall env arch)],
     none)

/-- The architecture loop, aborting at the first failed call. -/
def archLoop (env : BuildEnv) : List String → List Ev × Option ProcCall
  | [] => ([], none)
  | a :: rest =>
    match buildArch env a with
    | (evs, some c) => (evs, some c)
    | (evs, none) =>
      match archLoop env rest with
      | (evs2, r) => (evs ++ evs2, r)

/-- The codesign loop at lines 227..229 over the top-level entries of the
merged tree, aborting at the first failed call. -/
def signLoop (env : BuildEnv) : List (String × FSTree) → List Ev × Option ProcCall
  | [] => ([], none)
  | (n, _) :: rest =>
    if env.exitCode (codesignCall env n) ≠ 0 then
      ([Ev.callEv (codesignCall env n)], some (codesignCall env n))
    else
      match signLoop env rest with
      | (evs, r) => (Ev.callEv (codesignCall env n) :: evs, r)

/-- Outcome of one run of build(). -/
inductive BuildOutcome where
  | success (dst : List (String × FSTree))
  | procFail (c : ProcCall)
  | mergeFail (e : Err)
deriving Repr

/-- The build function at lines 188..229: per-architecture generation and
build, deletion of a pre-existing destination, creation of a fresh one, one
call of recursiveMergeBinaries, then sealing of every top-level artifact. A
non-zero status from any check_call raises CalledProcessError immediately;
an exception from the merge propagates unchanged. -/
def buildRun (env : BuildEnv) : List Ev × BuildOutcome :=
  match archLoop env architectures with
  | (evs, some c) => (evs, .procFail c)
  | (evs, none) =>
    match recursiveMergeBinaries env.lipoO env.tree0 env.tree1 with
    | .error e =>
      (evs ++ (if env.dstExists then [Ev.rmtreeEv env.dstApp] else []) ++
         [Ev.mkdirEv env.dstApp] ++ [Ev.mergeEv],
       .mergeFail e)
    | .ok (dst, _) =>
      match signLoop env dst with
      | (evs2, some c) =>
        (evs ++ (if env.dstExists then [Ev.rmtreeEv env.dstApp] else []) ++
           [Ev.mkdirEv env.dstApp] ++ [Ev.mergeEv] ++ evs2,
         .procFail c)
      | (evs2, none) =>
        (evs ++ (if env.dstExists then [Ev.rmtreeEv env.dstApp] else []) ++
           [Ev.mkdirEv env.dstApp] ++ [Ev.mergeEv] ++ evs2,
         .success dst)

/-! Trace lemmas for the build driver. -/

theorem no_call_in_mkdir {env : BuildEnv} {a : String} {c2 : ProcCall}
    (h : Ev.callEv c2 ∈ (if env.archDirExists a then ([] : List Ev)
                         else [Ev.mkdirEv a])) : False := by
  split at h <;> simp at h

theorem buildArch_fail {env : BuildEnv} {a : String} {evs : List Ev} {c : ProcCall}
    (h : buildArch env a = (evs, some c)) :
    ∃ evs2, evs = evs2 ++ [Ev.callEv c] ∧ env.exitCode c ≠ 0 ∧
      ∀ c2, Ev.callEv c2 ∈ evs2 → env.exitCode c2 = 0 := by
  rw [buildArch] at h
  by_cases h1 : env.exitCode (cmakeCall env a) ≠ 0
  · rw [if_pos h1] at h
    simp only [Prod.mk.injEq] at h
    obtain ⟨h2, h3⟩ := h
    injection h3 with h3
    subst h3
    subst h2
    exact ⟨_, rfl, h1, fun c2 hc => absurd hc (fun hc => no_call_in_mkdir hc)⟩
  · rw [if_neg h1] at h
    push_neg at h1
    by_cases h2 : env.exitCode (xcodebuildCall env a) ≠ 0
    · rw [if_pos h2] at h
      simp only [Prod.mk.injEq] at h
      obtain ⟨h3, h4⟩ := h
      injection h4 with h4
      subst h4
      subst h3
      refine ⟨(if env.archDirExists a then [] else [Ev.mkdirEv a]) ++
        [Ev.callEv (cmakeCall env a)], by rw [List.append_assoc]; rfl, h2, ?_⟩
      intro c2 hc
      rcases List.mem_append.mp hc with hc | hc
      · exact absurd hc (fun hc => no_call_in_mkdir hc)
      · rw [List.mem_singleton] at hc
        injection hc with hc
        subst hc
        exact h1
    · rw [if_neg h2] at h
      simp only [Prod.mk.injEq] at h
      obtain ⟨h3, h4⟩ := h
      simp at h4

theorem buildArch_success {env : BuildEnv} {a : String} {evs : List Ev}
    (h : buildArch env a = (evs, none)) :
    ∀ c2, Ev.callEv c2 ∈ evs → env.exitCode c2 = 0 := by
  rw [buildArch] at h
  by_cases h1 : env.exitCode (cmakeCall env a) ≠ 0
  · rw [if_pos h1] at h
    simp only [Prod.mk.injEq] at h
    simp at h
  · rw [if_neg h1] at h
    push_neg at h1
    by_cases h2 : env.exitCode (xcodebuildCall env a) ≠ 0
    · rw [if_pos h2] at h
      simp only [Prod.mk.injEq] at h
      simp at h
    · rw [if_neg h2] at h
      push_neg at h2
      simp only [Prod.mk.injEq] at h
      obtain ⟨h3, _⟩ := h
      subst h3
      intro c2 hc
      rcases List.mem_append.mp hc with hc | hc
      · exact absurd hc (fun hc => no_call_in_mkdir hc)
      · rcases List.mem_cons.mp hc with hc | hc
        · injection hc with hc
          subst hc
          exact h1
        · simp at hc
          subst hc
          exact h2

theorem archLoop_fail {env : BuildEnv} :
    ∀ {l : List String} {evs : List Ev} {c : ProcCall},
    archLoop env l = (evs, some c) →
    ∃ evs2, evs = evs2 ++ [Ev.callEv c] ∧ env.exitCode c ≠ 0 ∧
      ∀ c2, Ev.callEv c2 ∈ evs2 → env.exitCode c2 = 0 := by
  intro l
  induction l with
  | nil => intro evs c h; rw [archLoop] at h; simp at h
  | cons a rest ih =>
    intro evs c h
    rw [archLoop] at h
    cases hb : buildArch env a with
    | mk evsb rb =>
      cases rb with
      | some cb =>
        rw [hb] at h
        simp only [Prod.mk.injEq] at h
        obtain ⟨h1, h2⟩ := h
        injection h2 with h2
        subst h2
        subst h1
        exact buildArch_fail hb
      | none =>
        rw [hb] at h
        cases hr : archLoop env rest with
        | mk evs2 r2 =>
          rw [hr] at h
          simp only [Prod.mk.injEq] at h
          obtain ⟨h1, h2⟩ := h
          subst h2
          subst h1
          obtain ⟨evs3, rfl, hne, hall⟩ := ih hr
          refine ⟨evsb ++ evs3, by rw [List.append_assoc], hne, ?_⟩
          intro c2 hc
          rcases List.mem_append.mp hc with hc | hc
          · exact buildArch_success hb c2 hc
          · exact hall c2 hc

theorem archLoop_success {env : BuildEnv} :
    ∀ {l : List String} {evs : List Ev},
    archLoop env l = (evs, none) →
    ∀ c2, Ev.callEv c2 ∈ evs → env.exitCode c2 = 0 := by
  intro l
  induction l with
  | nil =>
    intro evs h c2 hc
    rw [archLoop] at h
    simp only [Prod.mk.injEq] at h
    obtain ⟨h1, _⟩ := h
    subst h1
    simp at hc
  | cons a rest ih =>
    intro evs h c2 hc
    rw [archLoop] at h
    cases hb : buildArch env a with
    | mk evsb rb =>
      cases rb with
      | some cb => rw [hb] at h; simp at h
      | none =>
        rw [hb] at h
        cases hr : archLoop env rest with
        | mk evs2 r2 =>
          rw [hr] at h
          simp only [Prod.mk.injEq] at h
          obtain ⟨h1, h2⟩ := h
          subst h2
          subst h1
          rcases List.mem_append.mp hc with hc | hc
          · exact buildArch_success hb c2 hc
          · exact ih hr c2 hc

theorem signLoop_fail {env : BuildEnv} :
    ∀ {l : List (String × FSTree)} {evs : List Ev} {c : ProcCall},
    signLoop env l = (evs, some c) →
    ∃ evs2, evs = evs2 ++ [Ev.callEv c] ∧ env.exitCode c ≠ 0 ∧
      ∀ c2, Ev.callEv c2 ∈ evs2 → env.exitCode c2 = 0 := by
  intro l
  induction l with
  | nil => intro evs c h; rw [signLoop] at h; simp at h
  | cons e rest ih =>
    intro evs c h
    obtain ⟨n, t⟩ := e
    rw [signLoop] at h
    by_cases h1 : env.exitCode (codesignCall env n) ≠ 0
    · rw [if_pos h1] at h
      simp only [Prod.mk.injEq] at h
      obtain ⟨h2, h3⟩ := h
      injection h3 with h3
      subst h3
      subst h2
      exact ⟨[], rfl, h1, by simp⟩
    · rw [if_neg h1] at h
      push_neg at h1
      cases hr : signLoop env rest with
      | mk evs2 r2 =>
        rw [hr] at h
        simp only [Prod.mk.injEq] at h
        obtain ⟨h2, h3⟩ := h
        subst h3
        subst h2
        obtain ⟨evs3, rfl, hne, hall⟩ := ih hr
        refine ⟨Ev.callEv (codesignCall env n) :: evs3, rfl, hne, ?_⟩
        intro c2 hc
        rcases List.mem_cons.mp hc with hc | hc
        · injection hc with hc
          subst hc
          exact h1
        · exact hall c2 hc

theorem buildArch_cons (env : BuildEnv) (a : String)
    (hex : env.archDirExists a = true) :
    ∃ tl r, buildArch env a = (Ev.callEv (cmakeCall env a) :: tl, r) := by
  rw [buildArch]
  by_cases h1 : env.exitCode (cmakeCall env a) ≠ 0
  · rw [if_pos h1]
    exact ⟨[], some (cmakeCall env a), by rw [hex]; rfl⟩
  · rw [if_neg h1]
    by_cases h2 : env.exitCode (xcodebuildCall env a) ≠ 0
    · rw [if_pos h2]
      exact ⟨[Ev.callEv (xcodebuildCall env a)], some (xcodebuildCall env a),
        by rw [hex]; rfl⟩
    · rw [if_neg h2]
      exact ⟨[Ev.callEv (xcodebuildCall env a)], none, by rw [hex]; rfl⟩

theorem archLoop_cons_prefix (env : BuildEnv) (a : String) (rest : List String) :
    ∃ sfx, (archLoop env (a :: rest)).1 = (buildArch env a).1 ++ sfx := by
  rw [archLoop]
  cases hb : buildArch env a with
  | mk evs r =>
    cases r with
    | some c => exact ⟨[], by rw [List.append_nil]⟩
    | none =>
      cases hr : archLoop env rest with
      | mk evs2 r2 => exact ⟨evs2, rfl⟩

theorem buildRun_trace_prefix (env : BuildEnv) :
    ∃ sfx, (buildRun env).1 = (archLoop env architectures).1 ++ sfx := by
  rw [buildRun]
  cases ha : archLoop env architectures with
  | mk evs r =>
    cases r with
    | some c => exact ⟨[], by rw [List.append_nil]⟩
    | none =>
      cases hm : recursiveMergeBinaries env.lipoO env.tree0 env.tree1 with
      | error e =>
        refine ⟨(if env.dstExists then [Ev.rmtreeEv env.dstApp] else []) ++
          [Ev.mkdirEv env.dstApp] ++ [Ev.mergeEv], ?_⟩
        simp [hm, List.append_assoc]
      | ok pr =>
        obtain ⟨dst, ws⟩ := pr
        cases hs : signLoop env dst with
        | mk evs2 r2 =>
          cases r2 with
          | some c =>
            refine ⟨(if env.dstExists then [Ev.rmtreeEv env.dstApp] else []) ++
              [Ev.mkdirEv env.dstApp] ++ [Ev.mergeEv] ++ evs2, ?_⟩
            simp [hm, hs, List.append_assoc]
          | none =>
            refine ⟨(if env.dstExists then [Ev.rmtreeEv env.dstApp] else []) ++
              [Ev.mkdirEv env.dstApp] ++ [Ev.mergeEv] ++ evs2, ?_⟩
            simp [hm, hs, List.append_assoc]

/-- C8: contrary to the claim, the project-generation invocation is never
skipped: even when the per-architecture build directory (and any previously
generated project files inside it) already exists, the very first observable
event of a run is the cmake invocation for the first architecture. Only the
creation of the build directory itself is guarded by an existence check. -/
theorem c8_cmake_invoked_even_when_project_exists (env : BuildEnv)
    (hex : env.archDirExists "x86_64" = true) :
    ∃ tl, (buildRun env).1 = Ev.callEv (cmakeCall env "x86_64") :: tl := by
  obtain ⟨sfx, hsfx⟩ := buildRun_trace_prefix env
  obtain ⟨sfx2, hsfx2⟩ :=
    archLoop_cons_prefix env "x86_64" ["arm64"]
  obtain ⟨tl, r, hpair⟩ := buildArch_cons env "x86_64" hex
  rw [show architectures = "x86_64" :: ["arm64"] from rfl] at hsfx
  rw [hsfx, hsfx2, hpair]
  exact ⟨tl ++ sfx2 ++ sfx, by simp [List.append_assoc]⟩

/-- Witness for C8 at a concrete environment whose build directories exist. -/
theorem c8_witness :
    ∃ tl, (buildRun
      { exitCode := fun _ => 0, archDirExists := fun _ => true, dstExists := false,
        tree0 := [("app", FSTree.file [1])], tree1 := [("app", FSTree.file [1])],
        lipoO := fun _ _ => none, buildTarget := "ALL_BUILD",
        dstApp := "universal", codesignIdentity := "-",
        pkgConfig := fun _ => "pc", qt5Path := fun _ => "qt" }).1 =
      Ev.callEv (cmakeCall
      { exitCode := fun _ => 0, archDirExists := fun _ => true, dstExists := false,
        tree0 := [("app", FSTree.file [1])], tree1 := [("app", FSTree.file [1])],
        lipoO := fun _ _ => none, buildTarget := "ALL_BUILD",
        dstApp := "universal", codesignIdentity := "-",
        pkgConfig := fun _ => "pc", qt5Path := fun _ => "qt" } "x86_64") :: tl :=
  c8_cmake_invoked_even_when_project_exists _ rfl

/-- C9: whenever a check_call invocation (cmake, xcodebuild or codesign)
returns a non-zero status, the run ends at exactly that call: the failing
call is the last event of the trace, every external call before it had
status zero (no retry), and nothing at all - no cleanup, no later artifact -
runs afterwards; the outcome is the propagated failure. -/
theorem c9_external_failure_aborts_run (env : BuildEnv) (tr : List Ev)
    (c : ProcCall)
    (h : buildRun env = (tr, .procFail c)) :
    ∃ tr2, tr = tr2 ++ [Ev.callEv c] ∧ env.exitCode c ≠ 0 ∧
      ∀ c2, Ev.callEv c2 ∈ tr2 → env.exitCode c2 = 0 := by
  rw [buildRun] at h
  split at h
  · next evs cf ha =>
    simp only [Prod.mk.injEq] at h
    obtain ⟨h1, h2⟩ := h
    injection h2 with h2
    subst h2
    subst h1
    exact archLoop_fail ha
  · next evs ha =>
    split at h
    · next e hm =>
      simp only [Prod.mk.injEq] at h
      obtain ⟨h1, h2⟩ := h
      injection h2
    · next dst ws hm =>
      split at h
      · next evs2 cf hs =>
        simp only [Prod.mk.injEq] at h
        obtain ⟨h1, h2⟩ := h
        injection h2 with h2
        subst h2
        subst h1
        obtain ⟨evs3, rfl, hne, hall⟩ := signLoop_fail hs
        refine ⟨evs ++ (if env.dstExists then [Ev.rmtreeEv env.dstApp] else []) ++
          [Ev.mkdirEv env.dstApp] ++ [Ev.mergeEv] ++ evs3,
          by simp [List.append_assoc], hne, ?_⟩
        intro c2 hc
        rcases List.mem_append.mp hc with hc | hc
        · rcases List.mem_append.mp hc with hc | hc
          · rcases List.mem_append.mp hc with hc | hc
            · rcases List.mem_append.mp hc with hc | hc
              · exact archLoop_success ha c2 hc
              · exfalso
                revert hc
                split <;> intro hc <;> simp at hc
            · simp at hc
          · simp at hc
        · exact hall c2 hc
      · next evs2 hs =>
        simp only [Prod.mk.injEq] at h
        obtain ⟨h1, h2⟩ := h
        injection h2

/-! Claim theorems about the merge, with concrete inputs where the claims
are settled by evaluation. -/

/-- Lipo oracle of a run in which the external lipo tool always fails. -/
def oracleFail : LipoOracle := fun _ _ => none

/-- C1: the completeness claim fails on the code: in Scenario A the merge
completes, yet the right-only entry c.txt is present in the right source and
absent from both the left source and the destination - the stale loop
variable at line 164 makes the second loop compare the last left name
against the left tree, so no right-only entry is ever copied. -/
theorem c1_merge_drops_right_only_entries :
    recursiveMergeBinaries oracleFail
        [("a.dylib", FSTree.file [1]), ("b.txt", FSTree.file [2])]
        [("a.dylib", FSTree.file [1]), ("c.txt", FSTree.file [3])] =
      .ok ([("a.dylib", FSTree.file [1]), ("b.txt", FSTree.file [2])], []) ∧
    findEntry [("a.dylib", FSTree.file [1]), ("c.txt", FSTree.file [3])]
      "c.txt" = some (FSTree.file [3]) ∧
    findEntry [("a.dylib", FSTree.file [1]), ("b.txt", FSTree.file [2])]
      "c.txt" = none :=
  ⟨rfl, rfl, rfl⟩

/-- C2: the right-only copy claim fails on the code: with Scenario A nested
under lib/, the merge completes but lib/c.txt (content Z present only on the
right) does not appear in the destination under any name. -/
theorem c2_right_only_entry_not_copied :
    recursiveMergeBinaries oracleFail
        [("lib", FSTree.dir [("a.dylib", FSTree.file [1]),
                             ("b.txt", FSTree.file [2])])]
        [("lib", FSTree.dir [("a.dylib", FSTree.file [1]),
                             ("c.txt", FSTree.file [3])])] =
      .ok ([("lib", FSTree.dir [("a.dylib", FSTree.file [1]),
                                ("b.txt", FSTree.file [2])])], []) ∧
    findPath [("lib", FSTree.dir [("a.dylib", FSTree.file [1]),
                                  ("c.txt", FSTree.file [3])])]
      ["lib", "c.txt"] = some (FSTree.file [3]) ∧
    findPath [("lib", FSTree.dir [("a.dylib", FSTree.file [1]),
                                  ("b.txt", FSTree.file [2])])]
      ["lib", "c.txt"] = none :=
  ⟨rfl, rfl, rfl⟩

/-- C3: for every relative path at which both source trees hold a regular
file with identical content, a completed merge holds that content at that
path (the left file is copied unchanged). -/
theorem c3_identical_files_copied_unchanged
    (o : LipoOracle) (src0 src1 dst : List (String × FSTree)) (ws : List Warn)
    (P : List String) (c : List Nat)
    (hwf0 : wfEntries src0 = true) (hwf1 : wfEntries src1 = true)
    (h : recursiveMergeBinaries o src0 src1 = .ok (dst, ws))
    (h0 : findPath src0 P = some (.file c))
    (h1 : findPath src1 P = some (.file c)) :
    findPath dst P = some (.file c) :=
  mergeGo_path_file_eq o P (entriesSize src0 + 1) ["src0"] ["src1"] ["dst"]
    src0 src1 dst ws c hwf0 hwf1 h h0 h1

/-- Witness for C3 at a concrete pair of trees sharing one identical file. -/
theorem c3_witness :
    findPath [("f", FSTree.file [5])] ["f"] = some (FSTree.file [5]) :=
  c3_identical_files_copied_unchanged oracleFail
    [("f", FSTree.file [5])] [("f", FSTree.file [5])]
    [("f", FSTree.file [5])] [] ["f"] [5] rfl rfl rfl rfl rfl

/-- C4: when the lipo invocation returns a non-zero status for a pair of
differing regular files, the function at lines 124..127 returns normally
with the left bytes and the diagnostic naming both inputs and the kept path;
accordingly, in a completed merge the destination holds the left bytes at
that path and the diagnostic is among the recorded warnings. -/
theorem c4_lipo_failure_keeps_left_and_warns :
    (∀ (o : LipoOracle) (p0 p1 : List String) (c0 c1 : List Nat),
      o c0 c1 = none →
      lipo o p0 p1 (.file c0) (.file c1) = .ok (c0, [Warn.mk p0 p1 p0])) ∧
    (∀ (o : LipoOracle) (src0 src1 dst : List (String × FSTree)) (ws : List Warn)
       (P : List String) (c c2 : List Nat),
      wfEntries src0 = true → wfEntries src1 = true →
      recursiveMergeBinaries o src0 src1 = .ok (dst, ws) →
      findPath src0 P = some (.file c) → findPath src1 P = some (.file c2) →
      c ≠ c2 → o c c2 = none →
      findPath dst P = some (.file c) ∧
        Warn.mk ("src0" :: P) ("src1" :: P) ("src0" :: P) ∈ ws) := by
  constructor
  · intro o p0 p1 c0 c1 ho
    rw [lipo]
    simp only [lipoExec, ho, shutilCopy]
  · intro o src0 src1 dst ws P c c2 hwf0 hwf1 h h0 h1 hne hou
    exact mergeGo_path_file_diff_fail o P (entriesSize src0 + 1)
      ["src0"] ["src1"] ["dst"] src0 src1 dst ws c c2 hwf0 hwf1 h h0 h1 hne hou

/-- Witness for C4 at a concrete failing lipo invocation and a concrete
merge of two differing files. -/
theorem c4_witness :
    lipo oracleFail ["p"] ["q"] (.file [1]) (.file [2]) =
      .ok ([1], [Warn.mk ["p"] ["q"] ["p"]]) ∧
    (findPath [("r.txt", FSTree.file [1])] ["r.txt"] = some (FSTree.file [1]) ∧
     Warn.mk ["src0", "r.txt"] ["src1", "r.txt"] ["src0", "r.txt"] ∈
       [Warn.mk ["src0", "r.txt"] ["src1", "r.txt"] ["src0", "r.txt"]]) :=
  ⟨c4_lipo_failure_keeps_left_and_warns.1 oracleFail ["p"] ["q"] [1] [2] rfl,
   c4_lipo_failure_keeps_left_and_warns.2 oracleFail
     [("r.txt", FSTree.file [1])] [("r.txt", FSTree.file [2])]
     [("r.txt", FSTree.file [1])]
     [Warn.mk ["src0", "r.txt"] ["src1", "r.txt"] ["src0", "r.txt"]]
     ["r.txt"] [1] [2] rfl rfl rfl rfl rfl (by decide) rfl⟩

/-- C5 counterexample: the right tree holds a symlink at p, but because the
left tree has a regular file there, the completed merge holds a regular file
at p and no symlink - the claim that every symlink of either source tree
reappears as a symlink in the merged tree is false. -/
theorem c5_counterexample_shadowed_symlink :
    findPath [("p", FSTree.link ["t"])] ["p"] = some (FSTree.link ["t"]) ∧
    recursiveMergeBinaries oracleFail
        [("p", FSTree.file [1])] [("p", FSTree.link ["t"])] =
      .ok ([("p", FSTree.file [1])],
           [Warn.mk ["src0", "p"] ["src1", "p"] ["src0", "p"]]) ∧
    findPath [("p", FSTree.file [1])] ["p"] = some (FSTree.file [1]) ∧
    FSTree.isLink (FSTree.file [1]) = false :=
  ⟨rfl, rfl, rfl, rfl⟩

/-- C5 as amended: in a completed merge, every left-hand symlink is
recreated at its own relative path with its relative resolved target, and a
right-hand symlink is recreated likewise provided the left tree has no entry
at that path and the parent directories of the path exist on the left. -/
theorem c5_amended_symlink_relocatability
    (o : LipoOracle) (src0 src1 dst : List (String × FSTree)) (ws : List Warn)
    (hwf0 : wfEntries src0 = true) (hwf1 : wfEntries src1 = true)
    (h : recursiveMergeBinaries o src0 src1 = .ok (dst, ws)) :
    (∀ P r, findPath src0 P = some (.link r) →
      findPath dst P = some (.link r)) ∧
    (∀ P r, findPath src1 P = some (.link r) → findPath src0 P = none →
      parentDirsOnLeft src0 P = true → findPath dst P = some (.link r)) := by
  constructor
  · intro P r h0
    exact mergeGo_path_left_link o P (entriesSize src0 + 1)
      ["src0"] ["src1"] ["dst"] src0 src1 dst ws r hwf0 hwf1 h h0
  · intro P r h1 h0 hpar
    exact mergeGo_path_right_link o P (entriesSize src0 + 1)
      ["src0"] ["src1"] ["dst"] src0 src1 dst ws r hwf0 hwf1 h h1 h0 hpar

/-- Witness for amended C5: one left symlink and one right-only symlink both
reappear in the merged tree with their own targets. -/
theorem c5_witness :
    findPath [("q", FSTree.link ["v"]), ("s", FSTree.link ["u"])] ["q"] =
      some (FSTree.link ["v"]) ∧
    findPath [("q", FSTree.link ["v"]), ("s", FSTree.link ["u"])] ["s"] =
      some (FSTree.link ["u"]) :=
  ⟨(c5_amended_symlink_relocatability oracleFail
      [("q", FSTree.link ["v"])] [("s", FSTree.link ["u"])]
      [("q", FSTree.link ["v"]), ("s", FSTree.link ["u"])] []
      rfl rfl rfl).1 ["q"] ["v"] rfl,
   (c5_amended_symlink_relocatability oracleFail
      [("q", FSTree.link ["v"])] [("s", FSTree.link ["u"])]
      [("q", FSTree.link ["v"]), ("s", FSTree.link ["u"])] []
      rfl rfl rfl).2 ["s"] ["u"] rfl rfl rfl⟩

/-- C6: in a completed merge, a left-hand symlink is always relinked - the
destination holds the symlink itself, never a copied or lipo-merged file -
regardless of the right-hand entry; and a right-hand symlink shadowed by a
non-link left entry is not relinked: the destination entry at that path
exists and is not a symlink. -/
theorem c6_symlink_fixup_precedence
    (o : LipoOracle) (src0 src1 dst : List (String × FSTree)) (ws : List Warn)
    (hwf0 : wfEntries src0 = true) (hwf1 : wfEntries src1 = true)
    (h : recursiveMergeBinaries o src0 src1 = .ok (dst, ws)) :
    (∀ P r, findPath src0 P = some (.link r) →
      findPath dst P = some (.link r)) ∧
    (∀ P r t, findPath src1 P = some (.link r) → findPath src0 P = some t →
      t.isLink = false →
      ∃ dt, findPath dst P = some dt ∧ dt.isLink = false) := by
  constructor
  · intro P r h0
    exact mergeGo_path_left_link o P (entriesSize src0 + 1)
      ["src0"] ["src1"] ["dst"] src0 src1 dst ws r hwf0 hwf1 h h0
  · intro P r t h1 h0 hnl
    exact mergeGo_path_shadowed_right_link o P (entriesSize src0 + 1)
      ["src0"] ["src1"] ["dst"] src0 src1 dst ws r t hwf0 hwf1 h h1 h0 hnl

/-- Witness for C6: a left symlink is relinked, and a right symlink shadowed
by a left regular file leaves a non-link entry in the destination. -/
theorem c6_witness :
    findPath [("f", FSTree.file [1]), ("L", FSTree.link ["x"])] ["L"] =
      some (FSTree.link ["x"]) ∧
    ∃ dt, findPath [("f", FSTree.file [1]), ("L", FSTree.link ["x"])] ["f"] =
      some dt ∧ dt.isLink = false :=
  ⟨(c6_symlink_fixup_precedence oracleFail
      [("L", FSTree.link ["x"]), ("f", FSTree.file [1])] [("f", FSTree.link ["y"])]
      [("f", FSTree.file [1]), ("L", FSTree.link ["x"])]
      [Warn.mk ["src0", "f"] ["src1", "f"] ["src0", "f"]]
      rfl rfl rfl).1 ["L"] ["x"] rfl,
   (c6_symlink_fixup_precedence oracleFail
      [("L", FSTree.link ["x"]), ("f", FSTree.file [1])] [("f", FSTree.link ["y"])]
      [("f", FSTree.file [1]), ("L", FSTree.link ["x"])]
      [Warn.mk ["src0", "f"] ["src1", "f"] ["src0", "f"]]
      rfl rfl rfl).2 ["f"] ["y"] (FSTree.file [1]) rfl rfl rfl⟩

/-- C7 counterexample: with a regular file on the left and an empty
directory on the right at the same path, the merge completes successfully,
silently records an empty directory there, and emits no diagnostic - the
collision is neither fatal nor diagnosed. -/
theorem c7_counterexample_silent_dir_pick :
    recursiveMergeBinaries oracleFail
        [("x", FSTree.file [7])] [("x", FSTree.dir [])] =
      .ok ([("x", FSTree.dir [])], []) :=
  rfl

/-- C7 as amended: a directory/non-directory collision is not handled as a
fatal diagnosed case. When the left entry is a regular file and the right a
directory, a completed merge silently holds an empty directory at that path
(and the right directory must have been empty); when the left entry is a
directory and the right a non-directory, the merge never completes at all,
aborting through an incidental unhandled exception. -/
theorem c7_amended_dir_collision_behavior
    (o : LipoOracle) (src0 src1 dst : List (String × FSTree)) (ws : List Warn)
    (hwf0 : wfEntries src0 = true) (hwf1 : wfEntries src1 = true)
    (h : recursiveMergeBinaries o src0 src1 = .ok (dst, ws)) :
    (∀ P c es1, findPath src0 P = some (.file c) →
      findPath src1 P = some (.dir es1) →
      es1 = [] ∧ findPath dst P = some (.dir [])) ∧
    (∀ P es0 t1, findPath src0 P = some (.dir es0) →
      findPath src1 P = some t1 → t1.isDir = false → False) := by
  constructor
  · intro P c es1 h0 h1
    exact mergeGo_path_file_dir o P (entriesSize src0 + 1)
      ["src0"] ["src1"] ["dst"] src0 src1 dst ws c es1 hwf0 hwf1 h h0 h1
  · intro P es0 t1 h0 h1 hnd
    exact mergeGo_path_dir_nonmatch o P (entriesSize src0 + 1)
      ["src0"] ["src1"] ["dst"] src0 src1 dst ws es0 t1 hwf0 hwf1 h h0 h1 hnd

/-- Witness for amended C7: the concrete silent empty-directory outcome. -/
theorem c7_witness :
    ([] : List (String × FSTree)) = [] ∧
    findPath [("x", FSTree.dir [])] ["x"] = some (FSTree.dir []) :=
  (c7_amended_dir_collision_behavior oracleFail
    [("x", FSTree.file [7])] [("x", FSTree.dir [])]
    [("x", FSTree.dir [])] [] rfl rfl rfl).1 ["x"] [7] [] rfl rfl

/-- C10: when the left source tree has no entries and the right tree has at
least one non-symlink entry, the merge raises NameError: the first loop
never binds newpath0 and the second loop reads it unbound at line 164. -/
theorem c10_empty_left_crashes_with_nameerror
    (o : LipoOracle) (src1 : List (String × FSTree))
    (h : ∃ e ∈ src1, FSTree.isLink (Prod.snd e) = false) :
    recursiveMergeBinaries o [] src1 = .error .nameError := by
  obtain ⟨e, he, hl⟩ := h
  cases src1 with
  | nil => simp at he
  | cons f rest =>
    obtain ⟨k, t⟩ := f
    exact mergeGo_left_empty_crashes o 0 ["src0"] ["src1"] ["dst"] k t rest

/-- Witness for C10 at a concrete right-only tree with one regular file. -/
theorem c10_witness :
    recursiveMergeBinaries oracleFail [] [("r.txt", FSTree.file [7])] =
      .error .nameError :=
  c10_empty_left_crashes_with_nameerror oracleFail [("r.txt", FSTree.file [7])]
    ⟨("r.txt", FSTree.file [7]), List.mem_cons_self _ _, rfl⟩

/-- Environment of a run in which xcodebuild exits with status 1 and every
other external call succeeds. -/
def envXcodebuildFails : BuildEnv :=
  { exitCode := fun c => if c.argv.head? = some "xcodebuild" then 1 else 0,
    archDirExists := fun _ => true,
    dstExists := false,
    tree0 := [("app", FSTree.file [1])],
    tree1 := [("app", FSTree.file [1])],
    lipoO := fun _ _ => none,
    buildTarget := "ALL_BUILD",
    dstApp := "universal",
    codesignIdentity := "-",
    pkgConfig := fun _ => "pc",
    qt5Path := fun _ => "qt" }

/-- Witness for C9 at a concrete run whose first xcodebuild invocation
fails: the trace ends at that call and the only call before it succeeded. -/
theorem c9_witness :
    ∃ tr2, [Ev.callEv (cmakeCall envXcodebuildFails "x86_64"),
            Ev.callEv (xcodebuildCall envXcodebuildFails "x86_64")] =
        tr2 ++ [Ev.callEv (xcodebuildCall envXcodebuildFails "x86_64")] ∧
      envXcodebuildFails.exitCode (xcodebuildCall envXcodebuildFails "x86_64") ≠ 0 ∧
      ∀ c2, Ev.callEv c2 ∈ tr2 →
        envXcodebuildFails.exitCode c2 = 0 :=
  c9_external_failure_aborts_run envXcodebuildFails
    [Ev.callEv (cmakeCall envXcodebuildFails "x86_64"),
     Ev.callEv (xcodebuildCall envXcodebuildFails "x86_64")]
    (xcodebuildCall envXcodebuildFails "x86_64") rfl
